import Mathlib

/-!
# Verification of the day07 dependency-ordered task scheduler

Shallow embedding of `src/day07.rs`: a dependency graph of tasks (chars),
a ready frontier implemented as a binary heap of `nchar` (a newtype whose
`Ord` reverses the natural order, turning Rust's max-heap into a min-heap),
a sequential scheduler `execution_order`, and a tick-based worker-pool
scheduler `execution_time`.

Modelling choices:
* `char` identifiers are Lean `Char` (Rust `char` comparison is by scalar
  value, same as `Char.lt` here).
* `HashSet<char>` fields (`unlocks`, `dependencies`, `completed`) are
  duplicate-free `List Char`; insertion is `insertNew`.  Set-iteration
  order only feeds pushes into the heap, and the heap is observed purely
  as a multiset by `pop`, so a deterministic list order is faithful.
* `HashMap<char, Node>` is an association list `List Node` keyed by `id`
  (unique by construction); `entry(..).or_insert_with(Node::new)` is
  `upsert`.
* `BinaryHeap<nchar>` is a `List Char` observed only through
  `heapPop`, which removes an element maximal in the reversed (`nchar`)
  order, exactly the contract of `BinaryHeap::pop`.
* `u32` costs and times are `Nat`; no claim touches overflow and all task
  ids produced by Graph::new's parser are in `A..Z`, so `id.toNat - 65`
  never underflows in any reachable call.
* The Rust loops in `execution_order` and `execution_time` have no
  syntactic termination guarantee, so both are embedded with explicit
  fuel, returning `none` when the fuel runs out: the loop terminates in
  the Rust sense iff some fuel returns `some`.
* `.unwrap()` on `nodes.get` can only panic on an id absent from the node
  map; such ids never reach those calls in any state built by `Graph.new`
  (every queued id is a node id).  The embedding makes those lookups
  total by skipping the absent case.
-/

namespace Day07

/-- `struct Node`: a task with its inverse edge sets. -/
structure Node where
  id : Char
  unlocks : List Char
  dependencies : List Char
deriving DecidableEq, Repr

/-- `Node::new`. -/
def Node.new (id : Char) : Node := ⟨id, [], []⟩

/-- `Node::cost`: `(self.id as u32) - ('A' as u32) + base_cost`. -/
def Node.cost (n : Node) (base_cost : Nat) : Nat :=
  n.id.toNat - 'A'.toNat + base_cost

/-- `HashSet::insert`: add an element if absent (kept duplicate-free). -/
def insertNew (c : Char) (l : List Char) : List Char :=
  if c ∈ l then l else l ++ [c]

/-- `struct Graph`. -/
structure Graph where
  nodes : List Node
  completed : List Char
  exec_queue : List Char
deriving DecidableEq, Repr

/-- `nodes.entry(c).or_insert_with(|| Node::new(c))` followed by a
modification of that entry. -/
def upsert (c : Char) (f : Node → Node) : List Node → List Node
  | [] => [f (Node.new c)]
  | n :: rest => if n.id = c then f n :: rest else n :: upsert c f rest

/-- One iteration of the edge loop in `Graph::new`: record
`source.unlocks += dest` and `dest.dependencies += source`. -/
def addEdge (nodes : List Node) (e : Char × Char) : List Node :=
  let nodes := upsert e.1 (fun n => { n with unlocks := insertNew e.2 n.unlocks }) nodes
  upsert e.2 (fun n => { n with dependencies := insertNew e.1 n.dependencies }) nodes

/-- `Graph::new`, after the regex has extracted the
`(source, destination)` pair of every input line: build the node map,
then seed the frontier with every zero-dependency node. -/
def Graph.new (edges : List (Char × Char)) : Graph :=
  let nodes := edges.foldl addEdge []
  { nodes := nodes
    completed := []
    exec_queue := (nodes.filter (fun n => n.dependencies.isEmpty)).map Node.id }

/-- The comparison of the `nchar` newtype (`impl Ord for nchar`): equal
chars are `Equal`, otherwise the answer is the reverse of the natural
`char` order. -/
def nchar_cmp (a b : Char) : Ordering :=
  if a = b then .eq else if a < b then .gt else .lt

/-- `BinaryHeap::pop` on a heap of `nchar`: remove and return an element
that is maximal in the `nchar` order. -/
def heapPop : List Char → Option (Char × List Char)
  | [] => none
  | c :: rest =>
    match heapPop rest with
    | none => some (c, [])
    | some (m, rest') =>
      if nchar_cmp c m = .lt then some (m, c :: rest') else some (c, rest)

/-- `impl Iterator for Graph`: `next` pops the execution queue. -/
def Graph.next (g : Graph) : Option (Char × Graph) :=
  match heapPop g.exec_queue with
  | none => none
  | some (c, q) => some (c, { g with exec_queue := q })

/-- `self.nodes.get(&c)`. -/
def Graph.find (g : Graph) (c : Char) : Option Node :=
  g.nodes.find? (fun n => n.id = c)

/-- The ids pushed by `Graph::complete_node(node_id)`: every unlock of
`node_id` whose dependencies are all completed once `node_id` is.  (The
readiness check runs after `completed.insert(node_id)` in the source.) -/
def Graph.newlyReady (g : Graph) (node_id : Char) : List Char :=
  match g.find node_id with
  | none => []
  | some node =>
    node.unlocks.filter (fun u =>
      match g.find u with
      | none => false
      | some un => un.dependencies.all (fun d => d ∈ insertNew node_id g.completed))

/-- `Graph::complete_node`: mark `node_id` completed, then push every
unlock that became ready. -/
def Graph.complete_node (g : Graph) (node_id : Char) : Graph :=
  { g with
    completed := insertNew node_id g.completed
    exec_queue := g.exec_queue ++ g.newlyReady node_id }

/-- The `while let Some(node_id) = self.next()` loop of
`Graph::execution_order`, with fuel. -/
def execution_order_go : Nat → Graph → List Char → Option (List Char × Graph)
  | 0, _, _ => none
  | fuel + 1, g, acc =>
    match g.next with
    | none => some (acc, g)
    | some (c, g') => execution_order_go fuel (g'.complete_node c) (acc ++ [c])

/-- `Graph::execution_order` (the result string as a list of chars,
together with the mutated graph `self`). -/
def execution_order (fuel : Nat) (g : Graph) : Option (List Char × Graph) :=
  execution_order_go fuel g []

/-- `enum WorkerStatus`. -/
inductive WorkerStatus where
  | Idle : WorkerStatus
  | Working : Char → Nat → WorkerStatus
deriving DecidableEq, Repr

/-- `WorkerStatus::Idle` test. -/
def WorkerStatus.isIdle : WorkerStatus → Bool
  | .Idle => true
  | .Working _ _ => false

/-- The cost looked up through `self.nodes.get(&node_id).unwrap().cost(..)`. -/
def Graph.costOf (g : Graph) (id : Char) (base_cost : Nat) : Nat :=
  match g.find id with
  | none => 0
  | some n => n.cost base_cost

/-- Assignment phase of `Graph::execution_time`: scan the workers in
index order; every idle worker tries to pop the frontier and, on
success, becomes `Working(id, time + cost)`. -/
def assign_workers (time base_cost : Nat) : List WorkerStatus → Graph → List WorkerStatus × Graph
  | [], g => ([], g)
  | .Idle :: ws, g =>
    match g.next with
    | some (id, g') =>
      let (ws', g'') := assign_workers time base_cost ws g'
      (.Working id (time + g'.costOf id base_cost) :: ws', g'')
    | none =>
      let (ws', g') := assign_workers time base_cost ws g
      (.Idle :: ws', g')
  | .Working id ct :: ws, g =>
    let (ws', g') := assign_workers time base_cost ws g
    (.Working id ct :: ws', g')

/-- Completion phase of `Graph::execution_time`: every working worker
whose completion time has arrived (`time >= completion_time`) completes
its node and becomes idle, in worker-index order. -/
def complete_workers (time : Nat) : List WorkerStatus → Graph → List WorkerStatus × Graph
  | [], g => ([], g)
  | .Idle :: ws, g =>
    let (ws', g') := complete_workers time ws g
    (.Idle :: ws', g')
  | .Working id ct :: ws, g =>
    if ct ≤ time then
      let (ws', g') := complete_workers time ws (g.complete_node id)
      (.Idle :: ws', g')
    else
      let (ws', g') := complete_workers time ws g
      (.Working id ct :: ws', g')

/-- The `loop` of `Graph::execution_time`, with fuel: assignment phase,
then the all-idle termination check (returning the current time), then
the completion phase, then `time = time + 1`. -/
def execution_time_go (base_cost : Nat) : Nat → Graph → List WorkerStatus → Nat → Option (Nat × Graph)
  | 0, _, _, _ => none
  | fuel + 1, g, workers, time =>
    let (workers1, g1) := assign_workers time base_cost workers g
    if workers1.all WorkerStatus.isIdle then
      some (time, g1)
    else
      let (workers2, g2) := complete_workers time workers1 g1
      execution_time_go base_cost fuel g2 workers2 (time + 1)

/-- `Graph::execution_time(num_workers, base_cost)`: start at time 0
with `num_workers` idle workers. -/
def execution_time (fuel : Nat) (g : Graph) (num_workers : Nat) (base_cost : Nat) :
    Option (Nat × Graph) :=
  execution_time_go base_cost fuel g (List.replicate num_workers .Idle) 0

/-- The task identifiers of a graph. -/
def Graph.ids (g : Graph) : List Char := g.nodes.map Node.id

/-- Acyclicity of the dependency graph, stated as the existence of a
topological rank: every dependency of a node ranks strictly below the
node.  For these finite graphs this is the standard equivalent of "no
directed cycle". -/
def Acyclic (g : Graph) : Prop :=
  ∃ f : Char → Nat, ∀ n ∈ g.nodes, ∀ d ∈ n.dependencies, f d < f n.id

/-- The worked example of the repository's tests: the seven edges of the
`TEST_INPUT` dependency list. -/
def exampleEdges : List (Char × Char) :=
  [('C', 'A'), ('C', 'F'), ('A', 'B'), ('A', 'D'),
   ('B', 'E'), ('D', 'E'), ('F', 'E')]

/-- A two-task dependency cycle: `A` before `B` and `B` before `A`. -/
def cycleGraph : Graph := Graph.new [('A', 'B'), ('B', 'A')]

/-! ## Basic facts about the frontier (`heapPop` / `Graph.next`) -/

theorem heapPop_eq_none_iff (l : List Char) : heapPop l = none ↔ l = [] := by
  cases l with
  | nil => simp [heapPop]
  | cons c rest =>
    simp only [heapPop]
    cases h : heapPop rest with
    | none => simp
    | some p =>
      obtain ⟨m, rest'⟩ := p
      by_cases hlt : nchar_cmp c m = .lt <;> simp [hlt]

/-- `heapPop` removes and returns the leftmost occurrence of the minimum
(in the natural `Char` order, because the `nchar` order is reversed). -/
theorem heapPop_spec (l : List Char) (c : Char) (q : List Char)
    (h : heapPop l = some (c, q)) :
    c ∈ l ∧ (∀ x ∈ l, c ≤ x) ∧ q = l.erase c := by
  induction l generalizing c q with
  | nil => simp [heapPop] at h
  | cons a rest ih =>
    simp only [heapPop] at h
    cases hrest : heapPop rest with
    | none =>
      rw [hrest] at h
      obtain rfl : rest = [] := (heapPop_eq_none_iff rest).mp hrest
      simp only [Option.some.injEq, Prod.mk.injEq] at h
      obtain ⟨rfl, rfl⟩ := h
      simp
    | some p =>
      obtain ⟨m, rest'⟩ := p
      rw [hrest] at h
      dsimp only at h
      obtain ⟨hm, hmin, hq⟩ := ih m rest' hrest
      by_cases hlt : nchar_cmp a m = .lt
      · have ham : m < a := by
          by_contra hge
          unfold nchar_cmp at hlt
          by_cases he : a = m
          · simp [he] at hlt
          · have : a < m := lt_of_le_of_ne (not_lt.mp (fun h' => hge h')) he
            simp [he, this] at hlt
        rw [if_pos hlt] at h
        simp only [Option.some.injEq, Prod.mk.injEq] at h
        obtain ⟨rfl, rfl⟩ := h
        refine ⟨List.mem_cons_of_mem _ hm, ?_, ?_⟩
        · intro x hx
          rcases List.mem_cons.mp hx with rfl | hx
          · exact le_of_lt ham
          · exact hmin x hx
        · rw [hq, List.erase_cons_tail]
          simp only [beq_iff_eq]
          exact fun h' => absurd h' (ne_of_gt ham)
      · have ham : a ≤ m := by
          unfold nchar_cmp at hlt
          by_cases he : a = m
          · exact le_of_eq he
          · by_cases hl : a < m
            · exact le_of_lt hl
            · simp [he, hl] at hlt
        rw [if_neg hlt] at h
        simp only [Option.some.injEq, Prod.mk.injEq] at h
        obtain ⟨rfl, rfl⟩ := h
        refine ⟨List.mem_cons_self _ _, ?_, ?_⟩
        · intro x hx
          rcases List.mem_cons.mp hx with rfl | hx
          · exact le_refl _
          · exact le_trans ham (hmin x hx)
        · simp [List.erase_cons_head]

theorem next_eq_none_iff (g : Graph) : g.next = none ↔ g.exec_queue = [] := by
  unfold Graph.next
  cases h : heapPop g.exec_queue with
  | none => simp [h, (heapPop_eq_none_iff g.exec_queue).mp h]
  | some p =>
    simp only [h]
    constructor
    · intro h'; cases h'
    · intro he
      rw [he] at h
      simp [heapPop] at h

theorem next_spec (g : Graph) (c : Char) (g' : Graph)
    (h : g.next = some (c, g')) :
    c ∈ g.exec_queue ∧ (∀ x ∈ g.exec_queue, c ≤ x) ∧
      g'.exec_queue = g.exec_queue.erase c ∧
      g'.nodes = g.nodes ∧ g'.completed = g.completed := by
  unfold Graph.next at h
  cases hp : heapPop g.exec_queue with
  | none => rw [hp] at h; cases h
  | some p =>
    obtain ⟨c', q⟩ := p
    rw [hp] at h
    simp only [Option.some.injEq, Prod.mk.injEq] at h
    obtain ⟨rfl, rfl⟩ := h
    obtain ⟨h1, h2, h3⟩ := heapPop_spec _ _ _ hp
    exact ⟨h1, h2, h3, rfl, rfl⟩

/-! ## Helper lemmas on the worker phases -/

theorem assign_workers_of_next_none {g : Graph} {t b : Nat} (h : g.next = none) :
    ∀ ws, assign_workers t b ws g = (ws, g) := by
  intro ws
  induction ws with
  | nil => rfl
  | cons w ws ih =>
    cases w with
    | Idle => simp [assign_workers, h, ih]
    | Working id ct => simp [assign_workers, ih]

theorem all_replicate_idle (w : Nat) :
    (List.replicate w WorkerStatus.Idle).all WorkerStatus.isIdle = true := by
  induction w with
  | zero => rfl
  | succ n ih => simp [List.replicate_succ, WorkerStatus.isIdle, ih]

/-- A run of the sequential scheduler that returns leaves the execution
queue drained: the loop only exits when `next` yields `None`. -/
theorem execution_order_go_final_queue (fuel : Nat) (g : Graph) (acc : List Char)
    (p : List Char × Graph) (h : execution_order_go fuel g acc = some p) :
    p.2.exec_queue = [] := by
  induction fuel generalizing g acc with
  | zero => simp [execution_order_go] at h
  | succ n ih =>
    simp only [execution_order_go] at h
    cases hn : g.next with
    | none =>
      rw [hn] at h
      simp only [Option.some.injEq] at h
      subst h
      exact (next_eq_none_iff g).mp hn
    | some cg =>
      rw [hn] at h
      exact ih _ _ h

/-! ## Claim theorems: concrete scenarios -/

/-- C3: on the graph built from the edges C→A, C→F, A→B, A→D, B→E, D→E,
F→E, `execution_order` terminates (within 7 loop iterations) returning
"CABDFE", and `execution_time` with 2 workers and base cost 0 terminates
(within 16 ticks) returning elapsed time 15. -/
theorem example_order_and_time :
    (execution_order 7 (Graph.new exampleEdges)).map Prod.fst =
        some ['C', 'A', 'B', 'D', 'F', 'E'] ∧
    (execution_time 16 (Graph.new exampleEdges) 2 0).map Prod.fst = some 15 :=
  ⟨rfl, rfl⟩

/-- C9: on the empty edge set, `execution_order` returns the empty
sequence and `execution_time` returns elapsed time 0 for every worker
count ≥ 1 and every base cost. -/
theorem empty_graph_zero (w b : Nat) (_hw : 1 ≤ w) :
    (execution_order 1 (Graph.new [])).map Prod.fst = some [] ∧
    (execution_time 1 (Graph.new []) w b).map Prod.fst = some 0 := by
  refine ⟨rfl, ?_⟩
  have hnone : (Graph.new ([] : List (Char × Char))).next = none := rfl
  simp only [execution_time, execution_time_go,
    assign_workers_of_next_none hnone, all_replicate_idle]
  rfl

theorem empty_graph_zero_witness :
    1 ≤ 3 ∧
    ((execution_order 1 (Graph.new [])).map Prod.fst = some [] ∧
      (execution_time 1 (Graph.new []) 3 5).map Prod.fst = some 0) :=
  ⟨by decide, empty_graph_zero 3 5 (by decide)⟩

/-- C10: with `num_workers = 0` the simulation loop breaks at its first
termination check for every graph and base cost, returning elapsed time 0
and leaving the graph untouched (no task completed: the completed set of
a freshly built graph is empty). -/
theorem zero_workers_returns_zero (edges : List (Char × Char)) (b : Nat) :
    execution_time 1 (Graph.new edges) 0 b = some (0, Graph.new edges) ∧
    (Graph.new edges).completed = [] :=
  ⟨rfl, rfl⟩

/-! ## Claim C6: behaviour on a cyclic graph -/

/-- C6 counterexample: the two-task dependency cycle A↔B is a cyclic
input graph, yet `execution_order` and `execution_time` both terminate
immediately (the cycle's tasks never enter the frontier), refuting "never
terminate". -/
theorem cycle_graph_terminates :
    (¬ Acyclic cycleGraph) ∧
    execution_order 1 cycleGraph = some ([], cycleGraph) ∧
    execution_time 1 cycleGraph 1 0 = some (0, cycleGraph) := by
  refine ⟨?_, rfl, rfl⟩
  rintro ⟨f, hf⟩
  have hA : (⟨'A', ['B'], ['B']⟩ : Node) ∈ cycleGraph.nodes := by decide
  have hB : (⟨'B', ['A'], ['A']⟩ : Node) ∈ cycleGraph.nodes := by decide
  have h1 := hf _ hA 'B' (by simp)
  have h2 := hf _ hB 'A' (by simp)
  simp at h1 h2
  omega

/-! ## Claim C7: repeated calls on the same graph -/

/-- C7 counterexample: running `execution_order` twice in sequence on the
same graph (the example graph) yields "CABDFE" the first time and the
empty sequence the second time — not identical output. -/
theorem repeat_execution_order_differs :
    ((execution_order 7 (Graph.new exampleEdges)).bind
        (fun p => (execution_order 7 p.2).map (fun q => (p.1, q.1)))) =
      some (['C', 'A', 'B', 'D', 'F', 'E'], ([] : List Char)) ∧
    (['C', 'A', 'B', 'D', 'F', 'E'] : List Char) ≠ [] :=
  ⟨rfl, by decide⟩

/-- C7 amended: `execution_order` consumes the graph's frontier, so a
second call on the graph returned by a completed first call yields the
empty sequence (identical outputs hold only for graphs rebuilt fresh,
where they are immediate since the embedding is a pure function). -/
theorem execution_order_second_call (fuel : Nat) (g : Graph)
    (p : List Char × Graph) (h : execution_order fuel g = some p)
    (fuel2 : Nat) (h2 : 1 ≤ fuel2) :
    execution_order fuel2 p.2 = some ([], p.2) := by
  have hq : p.2.exec_queue = [] := execution_order_go_final_queue fuel g [] p h
  have hn : p.2.next = none := (next_eq_none_iff p.2).mpr hq
  cases fuel2 with
  | zero => omega
  | succ k =>
    simp only [execution_order, execution_order_go, hn]

/-- The graph state after the first `execution_order` run on the example
graph: everything completed, frontier empty. -/
def exampleFinalGraph : Graph :=
  { nodes := [⟨'C', ['A', 'F'], []⟩, ⟨'A', ['B', 'D'], ['C']⟩,
              ⟨'F', ['E'], ['C']⟩, ⟨'B', ['E'], ['A']⟩,
              ⟨'D', ['E'], ['A']⟩, ⟨'E', [], ['B', 'D', 'F']⟩]
    completed := ['C', 'A', 'B', 'D', 'F', 'E']
    exec_queue := [] }

theorem execution_order_second_call_witness :
    execution_order 7 (Graph.new exampleEdges) =
      some (['C', 'A', 'B', 'D', 'F', 'E'], exampleFinalGraph) ∧ 1 ≤ 1 ∧
    execution_order 1 exampleFinalGraph = some ([], exampleFinalGraph) :=
  ⟨rfl, by decide,
    execution_order_second_call 7 (Graph.new exampleEdges)
      (['C', 'A', 'B', 'D', 'F', 'E'], exampleFinalGraph) rfl 1 (by decide)⟩

/-! ## Claim C2: the frontier pops the smallest pending identifier -/

/-- C2: `next` returns `none` exactly when the frontier is empty, and
whenever it returns an identifier that identifier is a pending one that
is smallest in the natural ascending `Char` order; it is removed (one
occurrence) and nothing else changes. -/
theorem frontier_pop_min (g : Graph) :
    (g.next = none ↔ g.exec_queue = []) ∧
    ∀ c g', g.next = some (c, g') →
      c ∈ g.exec_queue ∧ (∀ x ∈ g.exec_queue, c ≤ x) ∧
      g'.exec_queue = g.exec_queue.erase c ∧
      g'.nodes = g.nodes ∧ g'.completed = g.completed :=
  ⟨next_eq_none_iff g, fun c g' h => next_spec g c g' h⟩

/-- A frontier holding the simultaneously pending identifiers B, A, C. -/
def popWitnessGraph : Graph := ⟨[], [], ['B', 'A', 'C']⟩

/-! ## Claim C5: worker-count monotonicity -/

/-- An acyclic dependency graph exhibiting a scheduling anomaly: a third
worker grabs the cheap task F ahead of the long task Z, delaying Z. -/
def anomalyEdges : List (Char × Char) :=
  [('D', 'P'), ('D', 'K'), ('P', 'C'), ('P', 'E'), ('P', 'F'), ('U', 'Z')]

/-- C5 counterexample: on `anomalyEdges` (an acyclic graph) with base
cost 0, two workers finish in 47 ticks but three workers need 49 — the
makespan is not monotonically non-increasing in the worker count. -/
theorem worker_monotonicity_fails :
    Acyclic (Graph.new anomalyEdges) ∧
    (execution_time 100 (Graph.new anomalyEdges) 2 0).map Prod.fst = some 47 ∧
    (execution_time 100 (Graph.new anomalyEdges) 3 0).map Prod.fst = some 49 ∧
    2 ≤ 3 ∧ ¬ (49 : Nat) ≤ 47 := by
  refine ⟨?_, rfl, rfl, by decide, by decide⟩
  refine ⟨fun c => if c = 'D' ∨ c = 'U' then 0
          else if c = 'P' ∨ c = 'K' ∨ c = 'Z' then 1 else 2, ?_⟩
  decide

/-- C5 amended: there is an acyclic graph and base cost for which adding
a worker strictly increases the elapsed time, so the makespan is not
monotone in the worker count. -/
theorem worker_monotonicity_fails_ex :
    ∃ edges b w1 w2 t1 t2, w1 ≤ w2 ∧ Acyclic (Graph.new edges) ∧
      (execution_time 100 (Graph.new edges) w1 b).map Prod.fst = some t1 ∧
      (execution_time 100 (Graph.new edges) w2 b).map Prod.fst = some t2 ∧
      t1 < t2 := by
  refine ⟨anomalyEdges, 0, 2, 3, 47, 49, by decide, ?_, rfl, rfl, by decide⟩
  refine ⟨fun c => if c = 'D' ∨ c = 'U' then 0
          else if c = 'P' ∨ c = 'K' ∨ c = 'Z' then 1 else 2, ?_⟩
  decide

theorem frontier_pop_min_witness :
    'A' ∈ popWitnessGraph.exec_queue ∧
    (∀ x ∈ popWitnessGraph.exec_queue, 'A' ≤ x) ∧
    (⟨[], [], ['B', 'C']⟩ : Graph).exec_queue = popWitnessGraph.exec_queue.erase 'A' ∧
    (⟨[], [], ['B', 'C']⟩ : Graph).nodes = popWitnessGraph.nodes ∧
    (⟨[], [], ['B', 'C']⟩ : Graph).completed = popWitnessGraph.completed :=
  (frontier_pop_min popWitnessGraph).2 'A' ⟨[], [], ['B', 'C']⟩ rfl

/-! ## Well-formedness of the node map built by `Graph.new` -/

/-- Lookup in a raw node list (`Graph.find` at the node-list level). -/
def findN (nodes : List Node) (c : Char) : Option Node :=
  nodes.find? (fun n => n.id = c)

/-- The dependency list of an identifier (empty when absent). -/
def depsOf (nodes : List Node) (c : Char) : List Char :=
  ((findN nodes c).getD (Node.new c)).dependencies

theorem graph_find_eq (g : Graph) (c : Char) : g.find c = findN g.nodes c := rfl

theorem mem_insertNew (a c : Char) (l : List Char) :
    a ∈ insertNew c l ↔ a = c ∨ a ∈ l := by
  unfold insertNew
  by_cases h : c ∈ l
  · simp only [if_pos h]
    constructor
    · exact Or.inr
    · rintro (rfl | ha)
      · exact h
      · exact ha
  · simp [if_neg h, List.mem_append, or_comm]

theorem insertNew_nodup (c : Char) (l : List Char) (h : l.Nodup) :
    (insertNew c l).Nodup := by
  unfold insertNew
  by_cases hc : c ∈ l
  · simp [hc, h]
  · simp [hc, h, List.nodup_append]

theorem insertNew_of_not_mem {c : Char} {l : List Char} (h : c ∉ l) :
    insertNew c l = l ++ [c] := if_neg h

theorem subset_insertNew (c : Char) (l : List Char) : l ⊆ insertNew c l :=
  fun _ ha => (mem_insertNew _ c l).mpr (Or.inr ha)

theorem findN_id {nodes : List Node} {c : Char} {n : Node}
    (h : findN nodes c = some n) : n.id = c := by
  have := List.find?_some h
  simpa using this

theorem findN_mem {nodes : List Node} {c : Char} {n : Node}
    (h : findN nodes c = some n) : n ∈ nodes :=
  List.mem_of_find?_eq_some h

theorem findN_exists_of_mem_ids {nodes : List Node} {c : Char}
    (h : c ∈ nodes.map Node.id) : ∃ n, findN nodes c = some n := by
  obtain ⟨n, hn, rfl⟩ := List.mem_map.mp h
  have : (nodes.find? (fun m => m.id = n.id)).isSome = true :=
    List.find?_isSome.mpr ⟨n, hn, by simp⟩
  obtain ⟨m, hm⟩ := Option.isSome_iff_exists.mp this
  exact ⟨m, hm⟩

theorem mem_ids_of_findN {nodes : List Node} {c : Char} {n : Node}
    (h : findN nodes c = some n) : c ∈ nodes.map Node.id :=
  findN_id h ▸ List.mem_map_of_mem Node.id (findN_mem h)

theorem findN_of_mem {nodes : List Node} (hnd : (nodes.map Node.id).Nodup)
    {n : Node} (hn : n ∈ nodes) : findN nodes n.id = some n := by
  induction nodes with
  | nil => cases hn
  | cons m rest ih =>
    rcases List.mem_cons.mp hn with rfl | hn'
    · simp [findN]
    · have hmr : m.id ∉ rest.map Node.id := (List.nodup_cons.mp (by simpa using hnd)).1
      have hmn : ¬ (m.id = n.id) := fun he =>
        hmr (he ▸ List.mem_map_of_mem Node.id hn')
      rw [findN, List.find?_cons_of_neg _ (by simpa using hmn)]
      exact ih (List.nodup_cons.mp (by simpa using hnd)).2 hn'

theorem findN_upsert (nodes : List Node) (c : Char) (f : Node → Node)
    (hf : ∀ n, (f n).id = n.id) (x : Char) :
    findN (upsert c f nodes) x =
      if x = c then some (f ((findN nodes c).getD (Node.new c)))
      else findN nodes x := by
  induction nodes with
  | nil =>
    by_cases hx : x = c
    · subst hx
      rw [if_pos rfl]
      simp only [upsert, findN]
      rw [List.find?_cons_of_pos _ (by simp [hf, Node.new])]
      rfl
    · rw [if_neg hx]
      simp only [upsert, findN]
      rw [List.find?_cons_of_neg _ (by simp [hf, Node.new]; exact fun h => hx h.symm)]
  | cons n rest ih =>
    by_cases hn : n.id = c
    · simp only [upsert, if_pos hn]
      by_cases hx : x = c
      · subst hx
        rw [if_pos rfl, findN, List.find?_cons_of_pos _ (by simp [hf, hn]), findN,
          List.find?_cons_of_pos _ (by simp [hn])]
        simp
      · rw [if_neg hx, findN,
          List.find?_cons_of_neg _ (by simp [hf, hn]; exact fun h => hx h.symm), findN,
          List.find?_cons_of_neg _ (by simp [hn]; exact fun h => hx h.symm)]
    · simp only [upsert, if_neg hn]
      by_cases hx : x = c
      · subst hx
        rw [if_pos rfl] at ih ⊢
        rw [findN, List.find?_cons_of_neg _ (by simp [hn]), findN,
          List.find?_cons_of_neg _ (by simp [hn])]
        exact ih
      · rw [if_neg hx] at ih ⊢
        by_cases hnx : n.id = x
        · rw [findN, List.find?_cons_of_pos _ (by simp [hnx]), findN,
            List.find?_cons_of_pos _ (by simp [hnx])]
        · rw [findN, List.find?_cons_of_neg _ (by simp [hnx]), findN,
            List.find?_cons_of_neg _ (by simp [hnx])]
          exact ih

theorem map_id_upsert (nodes : List Node) (c : Char) (f : Node → Node)
    (hf : ∀ n, (f n).id = n.id) :
    (upsert c f nodes).map Node.id =
      if c ∈ nodes.map Node.id then nodes.map Node.id
      else nodes.map Node.id ++ [c] := by
  induction nodes with
  | nil => simp [upsert, hf, Node.new]
  | cons n rest ih =>
    by_cases hn : n.id = c
    · simp [upsert, hn, hf]
    · simp only [upsert, if_neg hn, List.map_cons, ih]
      by_cases hc : c ∈ rest.map Node.id
      · simp [hc, hn, Ne.symm hn]
      · simp [hc, hn, Ne.symm hn]

/-- The unlock list of an identifier (empty when absent). -/
def unlsOf (nodes : List Node) (c : Char) : List Char :=
  ((findN nodes c).getD (Node.new c)).unlocks

theorem depsOf_eq_of_findN {N : List Node} {c : Char} {n : Node}
    (h : findN N c = some n) : depsOf N c = n.dependencies := by
  simp [depsOf, h]

theorem unlsOf_eq_of_findN {N : List Node} {c : Char} {n : Node}
    (h : findN N c = some n) : unlsOf N c = n.unlocks := by
  simp [unlsOf, h]

theorem depsOf_of_mem {N : List Node} (hnd : (N.map Node.id).Nodup)
    {n : Node} (hn : n ∈ N) : depsOf N n.id = n.dependencies :=
  depsOf_eq_of_findN (findN_of_mem hnd hn)

theorem unlsOf_of_mem {N : List Node} (hnd : (N.map Node.id).Nodup)
    {n : Node} (hn : n ∈ N) : unlsOf N n.id = n.unlocks :=
  unlsOf_eq_of_findN (findN_of_mem hnd hn)

theorem depsOf_addEdge (nodes : List Node) (s d b : Char) :
    depsOf (addEdge nodes (s, d)) b =
      if b = d then insertNew s (depsOf nodes b) else depsOf nodes b := by
  have hfu : ∀ n : Node, (({ n with unlocks := insertNew d n.unlocks } : Node)).id = n.id :=
    fun _ => rfl
  have hfd : ∀ n : Node, (({ n with dependencies := insertNew s n.dependencies } : Node)).id = n.id :=
    fun _ => rfl
  unfold addEdge
  dsimp only
  unfold depsOf
  rw [findN_upsert _ _ _ hfd]
  by_cases hbd : b = d
  · rw [if_pos hbd, if_pos hbd]
    subst hbd
    simp only [Option.getD_some]
    rw [findN_upsert _ _ _ hfu]
    by_cases hbs : b = s
    · rw [if_pos hbs]
      subst hbs
      simp
    · rw [if_neg hbs]
  · rw [if_neg hbd, if_neg hbd]
    rw [findN_upsert _ _ _ hfu]
    by_cases hbs : b = s
    · rw [if_pos hbs]
      subst hbs
      simp
    · rw [if_neg hbs]

theorem unlsOf_addEdge (nodes : List Node) (s d b : Char) :
    unlsOf (addEdge nodes (s, d)) b =
      if b = s then insertNew d (unlsOf nodes b) else unlsOf nodes b := by
  have hfu : ∀ n : Node, (({ n with unlocks := insertNew d n.unlocks } : Node)).id = n.id :=
    fun _ => rfl
  have hfd : ∀ n : Node, (({ n with dependencies := insertNew s n.dependencies } : Node)).id = n.id :=
    fun _ => rfl
  unfold addEdge
  dsimp only
  unfold unlsOf
  rw [findN_upsert _ _ _ hfd]
  by_cases hbd : b = d
  · rw [if_pos hbd]
    subst hbd
    simp only [Option.getD_some]
    rw [findN_upsert _ _ _ hfu]
    by_cases hbs : b = s
    · rw [if_pos hbs, if_pos hbs]
      subst hbs
      simp
    · rw [if_neg hbs, if_neg hbs]
  · rw [if_neg hbd]
    rw [findN_upsert _ _ _ hfu]
    by_cases hbs : b = s
    · rw [if_pos hbs, if_pos hbs]
      subst hbs
      simp
    · rw [if_neg hbs, if_neg hbs]

theorem mem_ids_upsert (nodes : List Node) (c : Char) (f : Node → Node)
    (hf : ∀ n, (f n).id = n.id) (x : Char) :
    x ∈ (upsert c f nodes).map Node.id ↔ x = c ∨ x ∈ nodes.map Node.id := by
  rw [map_id_upsert _ _ _ hf]
  by_cases hc : c ∈ nodes.map Node.id
  · rw [if_pos hc]
    constructor
    · exact Or.inr
    · rintro (rfl | h)
      · exact hc
      · exact h
  · rw [if_neg hc]
    simp [or_comm]

theorem nodup_ids_upsert (nodes : List Node) (c : Char) (f : Node → Node)
    (hf : ∀ n, (f n).id = n.id) (h : (nodes.map Node.id).Nodup) :
    ((upsert c f nodes).map Node.id).Nodup := by
  rw [map_id_upsert _ _ _ hf]
  by_cases hc : c ∈ nodes.map Node.id
  · rw [if_pos hc]; exact h
  · rw [if_neg hc]; simp [List.nodup_append, h, hc]

theorem mem_ids_addEdge (nodes : List Node) (s d x : Char) :
    x ∈ (addEdge nodes (s, d)).map Node.id ↔
      x = s ∨ x = d ∨ x ∈ nodes.map Node.id := by
  unfold addEdge
  dsimp only
  rw [mem_ids_upsert _ d (fun n => { n with dependencies := insertNew s n.dependencies })
      (fun _ => rfl) x,
    mem_ids_upsert _ s (fun n => { n with unlocks := insertNew d n.unlocks })
      (fun _ => rfl) x]
  tauto

theorem nodup_ids_addEdge (nodes : List Node) (s d : Char)
    (h : (nodes.map Node.id).Nodup) :
    ((addEdge nodes (s, d)).map Node.id).Nodup := by
  unfold addEdge
  dsimp only
  exact nodup_ids_upsert _ _ _ (fun _ => rfl)
    (nodup_ids_upsert _ _ _ (fun _ => rfl) h)

/-- The structural invariant of the node map: unique keys, closed and
duplicate-free edge sets, the dependency and unlock sets being mutual
inverses. -/
structure NodesWF (N : List Node) : Prop where
  nodup_ids : (N.map Node.id).Nodup
  dep_closed : ∀ b, ∀ a ∈ depsOf N b, a ∈ N.map Node.id
  unl_closed : ∀ a, ∀ b ∈ unlsOf N a, b ∈ N.map Node.id
  dep_nodup : ∀ b, (depsOf N b).Nodup
  unl_nodup : ∀ a, (unlsOf N a).Nodup
  inverse : ∀ a b, a ∈ depsOf N b ↔ b ∈ unlsOf N a

theorem NodesWF_nil : NodesWF [] := by
  refine ⟨by simp, ?_, ?_, ?_, ?_, ?_⟩ <;>
    simp [depsOf, unlsOf, findN, Node.new]

theorem NodesWF_addEdge (nodes : List Node) (s d : Char) (h : NodesWF nodes) :
    NodesWF (addEdge nodes (s, d)) := by
  refine ⟨nodup_ids_addEdge nodes s d h.nodup_ids, ?_, ?_, ?_, ?_, ?_⟩
  · intro b a ha
    rw [depsOf_addEdge] at ha
    rw [mem_ids_addEdge]
    by_cases hbd : b = d
    · rw [if_pos hbd] at ha
      rcases (mem_insertNew _ _ _).mp ha with rfl | ha'
      · exact Or.inl rfl
      · exact Or.inr (Or.inr (h.dep_closed b a ha'))
    · rw [if_neg hbd] at ha
      exact Or.inr (Or.inr (h.dep_closed b a ha))
  · intro a b hb
    rw [unlsOf_addEdge] at hb
    rw [mem_ids_addEdge]
    by_cases hbs : a = s
    · rw [if_pos hbs] at hb
      rcases (mem_insertNew _ _ _).mp hb with rfl | hb'
      · exact Or.inr (Or.inl rfl)
      · exact Or.inr (Or.inr (h.unl_closed a b hb'))
    · rw [if_neg hbs] at hb
      exact Or.inr (Or.inr (h.unl_closed a b hb))
  · intro b
    rw [depsOf_addEdge]
    by_cases hbd : b = d
    · rw [if_pos hbd]; exact insertNew_nodup _ _ (h.dep_nodup b)
    · rw [if_neg hbd]; exact h.dep_nodup b
  · intro a
    rw [unlsOf_addEdge]
    by_cases hbs : a = s
    · rw [if_pos hbs]; exact insertNew_nodup _ _ (h.unl_nodup a)
    · rw [if_neg hbs]; exact h.unl_nodup a
  · intro a b
    rw [depsOf_addEdge, unlsOf_addEdge]
    by_cases hbd : b = d <;> by_cases has : a = s
    · subst hbd; subst has
      rw [if_pos rfl, if_pos rfl]
      simp [mem_insertNew]
    · rw [if_pos hbd, if_neg has]
      subst hbd
      rw [mem_insertNew]
      simp only [has, false_or]
      exact h.inverse a b
    · rw [if_neg hbd, if_pos has]
      subst has
      rw [mem_insertNew]
      constructor
      · intro hx
        exact Or.inr ((h.inverse a b).mp hx)
      · rintro (rfl | hx)
        · exact absurd rfl hbd
        · exact (h.inverse a b).mpr hx
    · rw [if_neg hbd, if_neg has]
      exact h.inverse a b

theorem NodesWF_foldl (edges : List (Char × Char)) :
    ∀ nodes, NodesWF nodes → NodesWF (edges.foldl addEdge nodes) := by
  induction edges with
  | nil => intro nodes h; exact h
  | cons e rest ih =>
    intro nodes h
    exact ih _ (NodesWF_addEdge nodes e.1 e.2 h)

theorem NodesWF_new (edges : List (Char × Char)) :
    NodesWF (Graph.new edges).nodes :=
  NodesWF_foldl edges [] NodesWF_nil

/-- Monotonicity: folding more edges never removes a recorded dependency. -/
theorem depsOf_foldl_mono (edges : List (Char × Char)) :
    ∀ nodes a b, a ∈ depsOf nodes b →
      a ∈ depsOf (edges.foldl addEdge nodes) b := by
  induction edges with
  | nil => intro nodes a b h; exact h
  | cons e rest ih =>
    intro nodes a b h
    simp only [List.foldl_cons]
    refine ih _ a b ?_
    obtain ⟨s, d⟩ := e
    rw [depsOf_addEdge]
    by_cases hbd : b = d
    · rw [if_pos hbd]; exact subset_insertNew _ _ h
    · rw [if_neg hbd]; exact h

/-- Every input edge is recorded as a dependency of its destination. -/
theorem edge_recorded (edges : List (Char × Char)) :
    ∀ nodes, ∀ e ∈ edges, e.1 ∈ depsOf (edges.foldl addEdge nodes) e.2 := by
  induction edges with
  | nil => intro nodes e he; cases he
  | cons e' rest ih =>
    intro nodes e he
    rcases List.mem_cons.mp he with rfl | he'
    · obtain ⟨s, d⟩ := e
      simp only [List.foldl_cons]
      apply depsOf_foldl_mono
      rw [depsOf_addEdge, if_pos rfl]
      exact (mem_insertNew _ _ _).mpr (Or.inl rfl)
    · simp only [List.foldl_cons]
      exact ih _ e he'

/-! ## The dynamic scheduling invariant -/

/-- Run-time invariant of a scheduler state.  `p` lists the identifiers
in flight: popped from the frontier but not yet completed (transiently
the just-popped id for the sequential scheduler, the ids of working
workers for the pool).  The queue and the in-flight ids are pairwise
distinct node ids, disjoint from the completed set, all their
dependencies are completed, every ready uncompleted node is queued or in
flight, and the completed set is closed under dependencies. -/
structure Inv (N : List Node) (g : Graph) (p : List Char) : Prop where
  hnodes : g.nodes = N
  sub_f : ∀ c ∈ g.exec_queue ++ p, c ∈ N.map Node.id
  sub_c : ∀ c ∈ g.completed, c ∈ N.map Node.id
  nodup_f : (g.exec_queue ++ p).Nodup
  nodup_c : g.completed.Nodup
  disj : ∀ c ∈ g.exec_queue ++ p, c ∉ g.completed
  ready_f : ∀ c ∈ g.exec_queue ++ p, ∀ d ∈ depsOf N c, d ∈ g.completed
  all_ready_in : ∀ n ∈ N, (∀ d ∈ n.dependencies, d ∈ g.completed) →
    n.id ∉ g.completed → n.id ∈ g.exec_queue ++ p
  closed_c : ∀ c ∈ g.completed, ∀ d ∈ depsOf N c, d ∈ g.completed

theorem Inv.perm {N : List Node} {g : Graph} {p : List Char} (h : Inv N g p)
    (g' : Graph) (p' : List Char)
    (hq : (g'.exec_queue ++ p').Perm (g.exec_queue ++ p))
    (hc : g'.completed = g.completed) (hn : g'.nodes = g.nodes) :
    Inv N g' p' := by
  refine ⟨hn.trans h.hnodes, ?_, ?_, ?_, ?_, ?_, ?_, ?_, ?_⟩
  · intro c hcm
    exact h.sub_f c (hq.mem_iff.mp hcm)
  · intro c hcm
    exact h.sub_c c (hc ▸ hcm)
  · exact hq.nodup_iff.mpr h.nodup_f
  · rw [hc]; exact h.nodup_c
  · intro c hcm
    rw [hc]
    exact h.disj c (hq.mem_iff.mp hcm)
  · intro c hcm d hd
    rw [hc]
    exact h.ready_f c (hq.mem_iff.mp hcm) d hd
  · intro n hn' hdeps hnc
    rw [hc] at hdeps hnc
    exact hq.mem_iff.mpr (h.all_ready_in n hn' hdeps hnc)
  · intro c hcm d hd
    rw [hc] at hcm ⊢
    exact h.closed_c c hcm d hd

/-- The invariant holds at construction: the frontier holds exactly the
zero-dependency nodes, nothing is completed. -/
theorem Inv_new (edges : List (Char × Char)) :
    Inv (Graph.new edges).nodes (Graph.new edges) [] := by
  have hWF : NodesWF (Graph.new edges).nodes := NodesWF_new edges
  set N := (Graph.new edges).nodes with hN
  have hq : (Graph.new edges).exec_queue =
      (N.filter (fun n => n.dependencies.isEmpty)).map Node.id := rfl
  have hcomp : (Graph.new edges).completed = [] := rfl
  have hqsub : ∀ c ∈ (Graph.new edges).exec_queue, c ∈ N.map Node.id := by
    intro c hc
    rw [hq] at hc
    obtain ⟨n, hn, rfl⟩ := List.mem_map.mp hc
    exact List.mem_map_of_mem Node.id (List.mem_of_mem_filter hn)
  refine ⟨rfl, ?_, ?_, ?_, ?_, ?_, ?_, ?_, ?_⟩
  · intro c hc
    rw [List.append_nil] at hc
    exact hqsub c hc
  · intro c hc
    rw [hcomp] at hc
    cases hc
  · rw [List.append_nil, hq]
    exact ((List.filter_sublist N).map Node.id).nodup hWF.nodup_ids
  · rw [hcomp]; exact List.nodup_nil
  · intro c hc
    rw [hcomp]
    exact List.not_mem_nil c
  · intro c hc d hd
    rw [List.append_nil, hq] at hc
    obtain ⟨n, hn, rfl⟩ := List.mem_map.mp hc
    have hdeps : n.dependencies = [] :=
      List.isEmpty_iff.mp (by simpa using (List.mem_filter.mp hn).2)
    rw [depsOf_of_mem hWF.nodup_ids (List.mem_of_mem_filter hn), hdeps] at hd
    cases hd
  · intro n hn hdeps _
    rw [List.append_nil, hq]
    have hempty : n.dependencies = [] := by
      rw [List.eq_nil_iff_forall_not_mem]
      intro d hd
      have := hdeps d hd
      rw [hcomp] at this
      cases this
    refine List.mem_map_of_mem Node.id (List.mem_filter.mpr ⟨hn, ?_⟩)
    simp [hempty]
  · intro c hc
    rw [hcomp] at hc
    cases hc

/-- Popping moves the minimum id from the frontier into flight. -/
theorem Inv.pop {N : List Node} {g : Graph} {p : List Char} (h : Inv N g p)
    {c : Char} {g' : Graph} (hn : g.next = some (c, g')) :
    Inv N g' (c :: p) ∧ c ∈ g.exec_queue := by
  obtain ⟨hcq, _hmin, hq, hnd, hcp⟩ := next_spec g c g' hn
  refine ⟨h.perm g' (c :: p) ?_ hcp hnd, hcq⟩
  rw [hq]
  refine List.Perm.trans List.perm_middle ?_
  exact (List.perm_cons_erase hcq).symm.append_right p

/-- Characterization of the ids pushed when completing `c`. -/
theorem mem_newlyReady {N : List Node} {g : Graph} (hnodes : g.nodes = N)
    {c : Char} {nc : Node} (hnc : findN N c = some nc)
    (hcnc : c ∉ g.completed) (u : Char) :
    u ∈ g.newlyReady c ↔
      u ∈ nc.unlocks ∧ ∃ un, findN N u = some un ∧
        ∀ d ∈ un.dependencies, d ∈ g.completed ++ [c] := by
  have hfind : g.find c = some nc := by rw [graph_find_eq, hnodes]; exact hnc
  have hins : insertNew c g.completed = g.completed ++ [c] :=
    insertNew_of_not_mem hcnc
  unfold Graph.newlyReady
  rw [hfind]
  dsimp only
  rw [List.mem_filter]
  constructor
  · rintro ⟨h1, h2⟩
    refine ⟨h1, ?_⟩
    cases hu : g.find u with
    | none => rw [hu] at h2; cases h2
    | some un =>
      rw [hu] at h2
      dsimp only at h2
      rw [List.all_eq_true] at h2
      refine ⟨un, by rw [← hnodes, ← graph_find_eq]; exact hu, ?_⟩
      intro d hd
      have := h2 d hd
      rwa [decide_eq_true_eq, hins] at this
  · rintro ⟨h1, un, hun, hready⟩
    refine ⟨h1, ?_⟩
    have hu : g.find u = some un := by rw [graph_find_eq, hnodes]; exact hun
    rw [hu]
    dsimp only
    rw [List.all_eq_true]
    intro d hd
    rw [decide_eq_true_eq, hins]
    exact hready d hd

theorem complete_node_eq {g : Graph} {c : Char} (hcnc : c ∉ g.completed) :
    g.complete_node c =
      ⟨g.nodes, g.completed ++ [c], g.exec_queue ++ g.newlyReady c⟩ := by
  unfold Graph.complete_node
  rw [insertNew_of_not_mem hcnc]

/-- Completing an in-flight id preserves the invariant; moreover every
pushed id was neither pending nor in flight nor completed, is distinct
from the completing id, has it as a dependency, and has all its
dependencies completed afterwards. -/
theorem Inv.complete {N : List Node} {g : Graph} {p : List Char}
    (hN : NodesWF N) (h : Inv N g p) {c : Char} (hc : c ∈ p) :
    Inv N (g.complete_node c) (p.erase c) ∧
    g.complete_node c =
      ⟨g.nodes, g.completed ++ [c], g.exec_queue ++ g.newlyReady c⟩ ∧
    (g.newlyReady c).Nodup ∧
    (∀ u ∈ g.newlyReady c,
      u ∉ g.exec_queue ∧ u ∉ p ∧ u ∉ g.completed ∧ u ≠ c ∧
      c ∈ depsOf N u ∧ ∀ d ∈ depsOf N u, d ∈ g.completed ++ [c]) := by
  have hcf : c ∈ g.exec_queue ++ p := List.mem_append.mpr (Or.inr hc)
  have hcid : c ∈ N.map Node.id := h.sub_f c hcf
  have hcnc : c ∉ g.completed := h.disj c hcf
  obtain ⟨nc, hnc⟩ := findN_exists_of_mem_ids hcid
  have hunlc : unlsOf N c = nc.unlocks := unlsOf_eq_of_findN hnc
  have heq : g.complete_node c =
      ⟨g.nodes, g.completed ++ [c], g.exec_queue ++ g.newlyReady c⟩ :=
    complete_node_eq hcnc
  have hmemN := mem_newlyReady h.hnodes hnc hcnc
  -- the per-push facts
  have hpush : ∀ u ∈ g.newlyReady c,
      u ∉ g.exec_queue ∧ u ∉ p ∧ u ∉ g.completed ∧ u ≠ c ∧
      c ∈ depsOf N u ∧ ∀ d ∈ depsOf N u, d ∈ g.completed ++ [c] := by
    intro u hu
    obtain ⟨hu1, un, hun, hready⟩ := (hmemN u).mp hu
    have hdepsu : depsOf N u = un.dependencies := depsOf_eq_of_findN hun
    have hcdep : c ∈ depsOf N u := by
      rw [hN.inverse c u, hunlc]
      exact hu1
    have hunc : u ≠ c := by
      intro he
      rw [he] at hcdep
      exact hcnc (h.ready_f c hcf c hcdep)
    have hucomp : u ∉ g.completed := by
      intro hu2
      exact hcnc (h.closed_c u hu2 c hcdep)
    have hufr : u ∉ g.exec_queue ++ p := by
      intro hu2
      exact hcnc (h.ready_f u hu2 c hcdep)
    rw [List.mem_append] at hufr
    push_neg at hufr
    refine ⟨hufr.1, hufr.2, hucomp, hunc, hcdep, ?_⟩
    rw [hdepsu]
    exact hready
  have hnodupnew : (g.newlyReady c).Nodup := by
    have : g.newlyReady c = nc.unlocks.filter
        (fun u => match g.find u with
          | none => false
          | some un => un.dependencies.all
              (fun d => decide (d ∈ insertNew c g.completed))) := by
      unfold Graph.newlyReady
      have hfind : g.find c = some nc := by
        rw [graph_find_eq, h.hnodes]; exact hnc
      rw [hfind]
    rw [this]
    refine List.Nodup.filter _ ?_
    rw [← hunlc]
    exact hN.unl_nodup c
  -- names for the components of the new state
  have hpnodup : p.Nodup := (List.nodup_append.mp h.nodup_f).2.1
  have hqp_disj : g.exec_queue.Disjoint p := (List.nodup_append.mp h.nodup_f).2.2
  have hcq : c ∉ g.exec_queue := fun hx => hqp_disj hx hc
  have hErased : ∀ x, x ∈ p.erase c ↔ x ≠ c ∧ x ∈ p :=
    fun x => hpnodup.mem_erase_iff
  -- the new frontier is a permutation of (old-frontier-minus-c) ++ pushes
  have hperm : ((g.exec_queue ++ g.newlyReady c) ++ p.erase c).Perm
      ((g.exec_queue ++ p.erase c) ++ g.newlyReady c) := by
    rw [List.append_assoc, List.append_assoc]
    exact List.Perm.append_left g.exec_queue (List.perm_append_comm)
  have hsub_e : ∀ x ∈ p.erase c, x ∈ p := fun x hx => ((hErased x).mp hx).2
  have hfr_sub : ∀ x ∈ g.exec_queue ++ p.erase c, x ∈ g.exec_queue ++ p := by
    intro x hx
    rcases List.mem_append.mp hx with hx | hx
    · exact List.mem_append.mpr (Or.inl hx)
    · exact List.mem_append.mpr (Or.inr (hsub_e x hx))
  have hnodup_new_fr : ((g.exec_queue ++ g.newlyReady c) ++ p.erase c).Nodup := by
    rw [hperm.nodup_iff]
    rw [List.nodup_append]
    refine ⟨?_, hnodupnew, ?_⟩
    · have : (g.exec_queue ++ p.erase c).Sublist (g.exec_queue ++ p) :=
        List.Sublist.append_left (List.erase_sublist c p) g.exec_queue
      exact this.nodup h.nodup_f
    · intro x hx hx2
      obtain ⟨h1, h2, _, _, _, _⟩ := hpush x hx2
      rcases List.mem_append.mp hx with hx | hx
      · exact h1 hx
      · exact h2 (hsub_e x hx)
  refine ⟨?_, heq, hnodupnew, hpush⟩
  refine ⟨?_, ?_, ?_, ?_, ?_, ?_, ?_, ?_, ?_⟩
  · rw [heq]; exact h.hnodes
  · intro x hx
    rw [heq] at hx
    dsimp only at hx
    rcases List.mem_append.mp hx with hx | hx
    · rcases List.mem_append.mp hx with hx | hx
      · exact h.sub_f x (List.mem_append.mpr (Or.inl hx))
      · obtain ⟨hu1, _, _⟩ := (hmemN x).mp hx
        refine hN.unl_closed c x ?_
        rw [hunlc]
        exact hu1
    · exact h.sub_f x (List.mem_append.mpr (Or.inr (hsub_e x hx)))
  · intro x hx
    rw [heq] at hx
    dsimp only at hx
    rcases List.mem_append.mp hx with hx | hx
    · exact h.sub_c x hx
    · rw [List.mem_singleton.mp hx]
      exact hcid
  · rw [heq]
    exact hnodup_new_fr
  · rw [heq]
    dsimp only
    rw [List.nodup_append]
    exact ⟨h.nodup_c, List.nodup_singleton c, by
      intro x hx hx2
      rw [List.mem_singleton.mp hx2] at hx
      exact hcnc hx⟩
  · intro x hx
    rw [heq] at hx ⊢
    dsimp only at hx ⊢
    rw [List.mem_append, List.mem_singleton]
    push_neg
    rcases List.mem_append.mp hx with hx | hx
    · rcases List.mem_append.mp hx with hx | hx
      · exact ⟨h.disj x (List.mem_append.mpr (Or.inl hx)), fun he => hcq (he ▸ hx)⟩
      · obtain ⟨_, _, h3, h4, _, _⟩ := hpush x hx
        exact ⟨h3, h4⟩
    · refine ⟨h.disj x (List.mem_append.mpr (Or.inr (hsub_e x hx))), ?_⟩
      exact ((hErased x).mp hx).1
  · intro x hx d hd
    rw [heq] at hx ⊢
    dsimp only at hx ⊢
    rcases List.mem_append.mp hx with hx | hx
    · rcases List.mem_append.mp hx with hx | hx
      · exact List.mem_append.mpr
          (Or.inl (h.ready_f x (List.mem_append.mpr (Or.inl hx)) d hd))
      · obtain ⟨_, _, _, _, _, h6⟩ := hpush x hx
        exact h6 d hd
    · exact List.mem_append.mpr
        (Or.inl (h.ready_f x (List.mem_append.mpr (Or.inr (hsub_e x hx))) d hd))
  · intro n hn hdeps hnid
    rw [heq] at hdeps hnid ⊢
    dsimp only at hdeps hnid ⊢
    rw [List.mem_append, List.mem_singleton] at hnid
    push_neg at hnid
    by_cases hcdep : c ∈ n.dependencies
    · refine List.mem_append.mpr (Or.inl (List.mem_append.mpr (Or.inr ?_)))
      rw [hmemN n.id]
      refine ⟨?_, n, findN_of_mem hN.nodup_ids hn, hdeps⟩
      rw [← hunlc, ← hN.inverse c n.id, depsOf_of_mem hN.nodup_ids hn]
      exact hcdep
    · have hdeps' : ∀ d ∈ n.dependencies, d ∈ g.completed := by
        intro d hd
        rcases List.mem_append.mp (hdeps d hd) with hd' | hd'
        · exact hd'
        · rw [List.mem_singleton.mp hd'] at hd
          exact absurd hd hcdep
      have := h.all_ready_in n hn hdeps' hnid.1
      rcases List.mem_append.mp this with hx | hx
      · exact List.mem_append.mpr (Or.inl (List.mem_append.mpr (Or.inl hx)))
      · refine List.mem_append.mpr (Or.inr ?_)
        rw [hErased]
        exact ⟨hnid.2, hx⟩
  · intro x hx d hd
    rw [heq] at hx ⊢
    dsimp only at hx ⊢
    rcases List.mem_append.mp hx with hx | hx
    · exact List.mem_append.mpr (Or.inl (h.closed_c x hx d hd))
    · have hxc : x = c := List.mem_singleton.mp hx
      subst hxc
      exact List.mem_append.mpr (Or.inl (h.ready_f x hcf d hd))

theorem completed_length_le {N : List Node} {g : Graph} {p : List Char}
    (hInv : Inv N g p) : g.completed.length ≤ N.length := by
  have h1 : g.completed.toFinset.card = g.completed.length :=
    List.toFinset_card_of_nodup hInv.nodup_c
  have h2 : g.completed.toFinset ⊆ (N.map Node.id).toFinset := by
    intro x hx
    rw [List.mem_toFinset] at hx ⊢
    exact hInv.sub_c x hx
  have h3 : (N.map Node.id).toFinset.card ≤ (N.map Node.id).length :=
    List.toFinset_card_le _
  have h4 : (N.map Node.id).length = N.length := List.length_map N Node.id
  have h5 : g.completed.toFinset.card ≤ (N.map Node.id).toFinset.card :=
    Finset.card_le_card h2
  rw [← h4, ← h1]
  exact le_trans h5 h3

/-- Main loop lemma for the sequential scheduler: with enough fuel the
loop returns; the final frontier is empty, the invariant still holds,
and the produced order lists exactly the completed ids, without
duplicates and never placing a task before one of its dependencies. -/
theorem execution_order_go_spec (N : List Node) (hN : NodesWF N) :
    ∀ fuel (g : Graph) (acc : List Char), Inv N g [] →
      N.length + 1 - g.completed.length ≤ fuel →
      (∀ x, x ∈ acc ↔ x ∈ g.completed) → acc.Nodup →
      acc.Pairwise (fun a b => b ∉ depsOf N a) →
      ∃ res g', execution_order_go fuel g acc = some (res, g') ∧
        Inv N g' [] ∧ g'.exec_queue = [] ∧
        (∀ x, x ∈ res ↔ x ∈ g'.completed) ∧ res.Nodup ∧
        res.Pairwise (fun a b => b ∉ depsOf N a) := by
  intro fuel
  induction fuel with
  | zero =>
    intro g acc hInv hfuel _ _ _
    exfalso
    have := completed_length_le hInv
    omega
  | succ n ih =>
    intro g acc hInv hfuel hacc haccnd haccpw
    cases hg : g.next with
    | none =>
      refine ⟨acc, g, ?_, hInv, (next_eq_none_iff g).mp hg, hacc, haccnd, haccpw⟩
      simp [execution_order_go, hg]
    | some cg =>
      obtain ⟨c, g1⟩ := cg
      obtain ⟨hInv1, hcq⟩ := hInv.pop hg
      obtain ⟨_, _, _, hn1, hc1⟩ := next_spec g c g1 hg
      have hcmem : c ∈ [c] := List.mem_singleton_self c
      obtain ⟨hInv2, heq2, _, _⟩ := Inv.complete hN hInv1 hcmem
      have herase : ([c].erase c : List Char) = [] := by simp
      rw [herase] at hInv2
      have hccomp : c ∉ g.completed :=
        hInv.disj c (List.mem_append.mpr (Or.inl hcq))
      have hcomp2 : (g1.complete_node c).completed = g.completed ++ [c] := by
        rw [heq2, hc1]
      have hfuel2 : N.length + 1 - (g1.complete_node c).completed.length ≤ n := by
        rw [hcomp2]
        have hle := completed_length_le hInv2
        rw [hcomp2] at hle
        simp only [List.length_append, List.length_singleton] at hle ⊢
        omega
      have hacc2 : ∀ x, x ∈ acc ++ [c] ↔ x ∈ (g1.complete_node c).completed := by
        intro x
        rw [hcomp2, List.mem_append, List.mem_append, hacc x]
      have hcnacc : c ∉ acc := fun hx => hccomp ((hacc c).mp hx)
      have haccnd2 : (acc ++ [c]).Nodup := by
        rw [List.nodup_append]
        exact ⟨haccnd, List.nodup_singleton c, by
          intro x hx hx2
          rw [List.mem_singleton.mp hx2] at hx
          exact hcnacc hx⟩
      have haccpw2 : (acc ++ [c]).Pairwise (fun a b => b ∉ depsOf N a) := by
        rw [List.pairwise_append]
        refine ⟨haccpw, List.pairwise_singleton _ c, ?_⟩
        intro a ha b hb hdep
        rw [List.mem_singleton.mp hb] at hdep
        exact hccomp (hInv.closed_c a ((hacc a).mp ha) c hdep)
      obtain ⟨res, g', hrun, h1, h2, h3, h4, h5⟩ :=
        ih (g1.complete_node c) (acc ++ [c]) hInv2 hfuel2 hacc2 haccnd2 haccpw2
      refine ⟨res, g', ?_, h1, h2, h3, h4, h5⟩
      simp only [execution_order_go, hg]
      exact hrun

/-- Every nonempty list has an element minimizing a `Nat`-valued
measure. -/
theorem exists_min_by {α : Type} (f : α → Nat) :
    ∀ l : List α, l ≠ [] → ∃ m ∈ l, ∀ x ∈ l, f m ≤ f x := by
  intro l
  induction l with
  | nil => intro h; exact absurd rfl h
  | cons a rest ih =>
    intro _
    by_cases hr : rest = []
    · subst hr
      refine ⟨a, List.mem_singleton_self a, ?_⟩
      intro x hx
      rw [List.mem_singleton.mp hx]
    · obtain ⟨m, hm, hmin⟩ := ih hr
      by_cases hle : f a ≤ f m
      · refine ⟨a, List.mem_cons_self a rest, ?_⟩
        intro x hx
        rcases List.mem_cons.mp hx with rfl | hx
        · exact le_refl _
        · exact le_trans hle (hmin x hx)
      · refine ⟨m, List.mem_cons_of_mem a hm, ?_⟩
        intro x hx
        rcases List.mem_cons.mp hx with rfl | hx
        · exact le_of_lt (not_le.mp hle)
        · exact hmin x hx

/-- When the frontier is empty and the dependency graph admits a
topological rank, everything is completed. -/
theorem all_completed_of_empty_queue (N : List Node) (hN : NodesWF N)
    (g : Graph) (hInv : Inv N g []) (hq : g.exec_queue = [])
    (f : Char → Nat) (hf : ∀ n ∈ N, ∀ d ∈ n.dependencies, f d < f n.id) :
    ∀ n ∈ N, n.id ∈ g.completed := by
  by_contra hcon
  push_neg at hcon
  obtain ⟨n₀, hn₀, hn₀c⟩ := hcon
  have hS : n₀ ∈ N.filter (fun n => n.id ∉ g.completed) :=
    List.mem_filter.mpr ⟨hn₀, by simpa using hn₀c⟩
  have hSne : N.filter (fun n => n.id ∉ g.completed) ≠ [] :=
    fun he => by rw [he] at hS; cases hS
  obtain ⟨m, hm, hmin⟩ := exists_min_by (fun n => f n.id) _ hSne
  have hmN : m ∈ N := List.mem_of_mem_filter hm
  have hmc : m.id ∉ g.completed := by simpa using (List.mem_filter.mp hm).2
  have hdeps : ∀ d ∈ m.dependencies, d ∈ g.completed := by
    intro d hd
    have hdid : d ∈ N.map Node.id := by
      have := hN.dep_closed m.id d
      rw [depsOf_of_mem hN.nodup_ids hmN] at this
      exact this hd
    obtain ⟨nd, hnd⟩ := findN_exists_of_mem_ids hdid
    have hndN : nd ∈ N := findN_mem hnd
    have hndid : nd.id = d := findN_id hnd
    by_contra hdc
    have hndS : nd ∈ N.filter (fun n => n.id ∉ g.completed) :=
      List.mem_filter.mpr ⟨hndN, by simp [hndid, hdc]⟩
    have h1 : f m.id ≤ f nd.id := hmin nd hndS
    have h2 : f d < f m.id := hf m hmN d hd
    rw [hndid] at h1
    omega
  have := hInv.all_ready_in m hmN hdeps hmc
  rw [hq] at this
  cases this

/-- C1: on an acyclic graph, `execution_order` terminates and returns a
permutation of all task identifiers in which every task appears strictly
after each of its dependencies (every edge (u, v) of the input has u
strictly before v). -/
theorem execution_order_topological (edges : List (Char × Char))
    (hacyc : Acyclic (Graph.new edges)) :
    ∃ fuel res g', execution_order fuel (Graph.new edges) = some (res, g') ∧
      res.Perm (Graph.new edges).ids ∧
      ∀ e ∈ edges, res.indexOf e.1 < res.indexOf e.2 := by
  have hN : NodesWF (Graph.new edges).nodes := NodesWF_new edges
  have hInv : Inv (Graph.new edges).nodes (Graph.new edges) [] := Inv_new edges
  obtain ⟨f, hf⟩ := hacyc
  set N := (Graph.new edges).nodes with hNdef
  have hcomp0 : (Graph.new edges).completed = [] := rfl
  obtain ⟨res, g', hrun, hInv', hq', hres, hresnd, hrespw⟩ :=
    execution_order_go_spec N hN (N.length + 1) (Graph.new edges) [] hInv
      (Nat.sub_le _ _)
      (fun x => by rw [hcomp0])
      List.nodup_nil List.Pairwise.nil
  have hall := all_completed_of_empty_queue N hN g' hInv' hq' f hf
  have hmem : ∀ x, x ∈ res ↔ x ∈ N.map Node.id := by
    intro x
    rw [hres x]
    constructor
    · exact hInv'.sub_c x
    · intro hx
      obtain ⟨n, hn, rfl⟩ := List.mem_map.mp hx
      exact hall n hn
  refine ⟨N.length + 1, res, g', hrun, ?_, ?_⟩
  · exact (List.perm_ext_iff_of_nodup hresnd hN.nodup_ids).mpr hmem
  · intro e he
    obtain ⟨u, v⟩ := e
    have hdep : u ∈ depsOf N v := edge_recorded edges [] (u, v) he
    have hvid : v ∈ N.map Node.id := by
      cases hfv : findN N v with
      | none => rw [depsOf] at hdep; rw [hfv] at hdep; simp [Node.new] at hdep
      | some nv => exact mem_ids_of_findN hfv
    have huid : u ∈ N.map Node.id := hN.dep_closed v u hdep
    have huv : u ≠ v := by
      intro he'
      subst he'
      obtain ⟨nu, hnu⟩ := findN_exists_of_mem_ids huid
      have h1 : depsOf N u = nu.dependencies := depsOf_eq_of_findN hnu
      have h2 : f u < f nu.id := hf nu (findN_mem hnu) u (h1 ▸ hdep)
      rw [findN_id hnu] at h2
      omega
    have humem : u ∈ res := (hmem u).mpr huid
    have hvmem : v ∈ res := (hmem v).mpr hvid
    have hul : res.indexOf u < res.length := List.indexOf_lt_length.mpr humem
    have hvl : res.indexOf v < res.length := List.indexOf_lt_length.mpr hvmem
    by_contra hle
    push_neg at hle
    have hne : res.indexOf v ≠ res.indexOf u := by
      intro heq
      exact huv ((List.indexOf_inj humem hvmem).mp heq.symm)
    have hlt : res.indexOf v < res.indexOf u := lt_of_le_of_ne hle hne
    have hpw := (List.pairwise_iff_getElem.mp hrespw)
      (res.indexOf v) (res.indexOf u) hvl hul hlt
    rw [List.getElem_indexOf hvl, List.getElem_indexOf hul] at hpw
    exact hpw hdep

theorem execution_order_topological_witness :
    Acyclic (Graph.new exampleEdges) ∧
    (∃ fuel res g', execution_order fuel (Graph.new exampleEdges) = some (res, g') ∧
      res.Perm (Graph.new exampleEdges).ids ∧
      ∀ e ∈ exampleEdges, res.indexOf e.1 < res.indexOf e.2) := by
  have hacyc : Acyclic (Graph.new exampleEdges) :=
    ⟨fun c => if c = 'C' then 0 else if c = 'A' ∨ c = 'F' then 1
      else if c = 'E' then 3 else 2, by decide⟩
  exact ⟨hacyc, execution_order_topological exampleEdges hacyc⟩

/-! ## Push-discipline instrumentation (claim C8) -/

/-- All ids pushed onto the frontier during a run of the sequential
scheduler. -/
def exec_order_pushes : Nat → Graph → List Char
  | 0, _ => []
  | fuel + 1, g =>
    match g.next with
    | none => []
    | some (c, g') => g'.newlyReady c ++ exec_order_pushes fuel (g'.complete_node c)

/-- Per-event discipline along a sequential run: every pushed id was not
pending, not completed, distinct from the task whose completion pushed
it, and that task is one of its dependencies — the last one to complete
(it was not completed before the event, and afterwards all of the pushed
id's dependencies are). -/
def order_run_ok : Nat → Graph → Prop
  | 0, _ => True
  | fuel + 1, g =>
    match g.next with
    | none => True
    | some (c, g') =>
      (∀ u ∈ g'.newlyReady c,
        u ∉ g'.exec_queue ∧ u ∉ g'.completed ∧ u ≠ c ∧ c ∉ g'.completed ∧
        c ∈ depsOf g'.nodes u ∧
        ∀ d ∈ depsOf g'.nodes u, d ∈ g'.completed ++ [c]) ∧
      order_run_ok fuel (g'.complete_node c)

theorem order_pushes_not_completed (N : List Node) (hN : NodesWF N) :
    ∀ fuel (g : Graph), Inv N g [] →
      ∀ x ∈ exec_order_pushes fuel g, x ∉ g.completed := by
  intro fuel
  induction fuel with
  | zero => intro g _ x hx; cases hx
  | succ n ih =>
    intro g hInv x hx
    rw [exec_order_pushes] at hx
    cases hg : g.next with
    | none => rw [hg] at hx; cases hx
    | some cg =>
      obtain ⟨c, g1⟩ := cg
      rw [hg] at hx
      obtain ⟨hInv1, hcq⟩ := hInv.pop hg
      obtain ⟨_, _, _, hn1, hc1⟩ := next_spec g c g1 hg
      obtain ⟨hInv2, heq2, _, hpush⟩ :=
        Inv.complete hN hInv1 (List.mem_singleton_self c)
      have herase : ([c].erase c : List Char) = [] := by simp
      rw [herase] at hInv2
      rcases List.mem_append.mp hx with hx | hx
      · have := (hpush x hx).2.2.1
        rwa [hc1] at this
      · have hxc2 : x ∉ (g1.complete_node c).completed := ih _ hInv2 x hx
        rw [heq2] at hxc2
        dsimp only at hxc2
        rw [hc1] at hxc2
        intro hxc
        exact hxc2 (List.mem_append.mpr (Or.inl hxc))

theorem order_pushes_nodup (N : List Node) (hN : NodesWF N) :
    ∀ fuel (g : Graph), Inv N g [] →
      (g.exec_queue ++ exec_order_pushes fuel g).Nodup := by
  intro fuel
  induction fuel with
  | zero =>
    intro g hInv
    rw [exec_order_pushes, List.append_nil]
    have := hInv.nodup_f
    rwa [List.append_nil] at this
  | succ n ih =>
    intro g hInv
    rw [exec_order_pushes]
    cases hg : g.next with
    | none =>
      rw [List.append_nil]
      have := hInv.nodup_f
      rwa [List.append_nil] at this
    | some cg =>
      obtain ⟨c, g1⟩ := cg
      obtain ⟨hInv1, hcq⟩ := hInv.pop hg
      obtain ⟨_, _, hq1, hn1, hc1⟩ := next_spec g c g1 hg
      obtain ⟨hInv2, heq2, _, hpush⟩ :=
        Inv.complete hN hInv1 (List.mem_singleton_self c)
      have herase : ([c].erase c : List Char) = [] := by simp
      rw [herase] at hInv2
      have hIH := ih _ hInv2
      have hq2 : (g1.complete_node c).exec_queue =
          g.exec_queue.erase c ++ g1.newlyReady c := by
        rw [heq2, hq1]
      rw [hq2] at hIH
      have hqnodup : g.exec_queue.Nodup := by
        have := hInv.nodup_f
        rwa [List.append_nil] at this
      have hcnot : c ∉ g.exec_queue.erase c ++
          (g1.newlyReady c ++ exec_order_pushes n (g1.complete_node c)) := by
        intro hc'
        rcases List.mem_append.mp hc' with hc' | hc'
        · exact ((hqnodup.mem_erase_iff).mp hc').1 rfl
        · rcases List.mem_append.mp hc' with hc' | hc'
          · exact (hpush c hc').2.2.2.1 rfl
          · have := order_pushes_not_completed N hN n _ hInv2 c hc'
            rw [heq2] at this
            dsimp only at this
            exact this (List.mem_append.mpr (Or.inr (List.mem_singleton_self c)))
      have hperm : (g.exec_queue ++
            (g1.newlyReady c ++ exec_order_pushes n (g1.complete_node c))).Perm
          (c :: (g.exec_queue.erase c ++
            (g1.newlyReady c ++ exec_order_pushes n (g1.complete_node c)))) :=
        (List.perm_cons_erase hcq).append_right _
      rw [hperm.nodup_iff, List.nodup_cons]
      refine ⟨hcnot, ?_⟩
      rw [← List.append_assoc]
      exact hIH

theorem order_run_ok_holds (N : List Node) (hN : NodesWF N) :
    ∀ fuel (g : Graph), Inv N g [] → order_run_ok fuel g := by
  intro fuel
  induction fuel with
  | zero => intro g _; trivial
  | succ n ih =>
    intro g hInv
    rw [order_run_ok]
    cases hg : g.next with
    | none => trivial
    | some cg =>
      obtain ⟨c, g1⟩ := cg
      obtain ⟨hInv1, hcq⟩ := hInv.pop hg
      obtain ⟨_, _, _, hn1, hc1⟩ := next_spec g c g1 hg
      obtain ⟨hInv2, heq2, _, hpush⟩ :=
        Inv.complete hN hInv1 (List.mem_singleton_self c)
      have herase : ([c].erase c : List Char) = [] := by simp
      rw [herase] at hInv2
      have hccomp : c ∉ g1.completed :=
        hInv1.disj c (List.mem_append.mpr (Or.inr (List.mem_singleton_self c)))
      refine ⟨?_, ih _ hInv2⟩
      intro u hu
      obtain ⟨h1, h2, h3, h4, h5, h6⟩ := hpush u hu
      rw [hn1, hInv.hnodes]
      exact ⟨h1, h3, h4, hccomp, h5, h6⟩

/-! ## Worker-pool phases -/

/-- The ids currently claimed by working workers. -/
def workingIds : List WorkerStatus → List Char
  | [] => []
  | .Idle :: ws => workingIds ws
  | .Working id _ :: ws => id :: workingIds ws

theorem costOf_congr {g g' : Graph} (h : g'.nodes = g.nodes) (id : Char) (b : Nat) :
    g'.costOf id b = g.costOf id b := by
  unfold Graph.costOf Graph.find
  rw [h]

/-- The assignment phase preserves the invariant: it moves popped ids
from the frontier into the working set, leaving the combined frontier
(as a multiset), the completed set and the node map unchanged. -/
theorem assign_workers_spec (N : List Node) (t b : Nat) :
    ∀ (ws : List WorkerStatus) (g : Graph) (rest : List Char)
      (ws' : List WorkerStatus) (g' : Graph),
      Inv N g (workingIds ws ++ rest) →
      assign_workers t b ws g = (ws', g') →
      Inv N g' (workingIds ws' ++ rest) ∧ g'.completed = g.completed ∧
      g'.nodes = g.nodes ∧
      (g'.exec_queue ++ (workingIds ws' ++ rest)).Perm
        (g.exec_queue ++ (workingIds ws ++ rest)) ∧
      (∀ id ct, WorkerStatus.Working id ct ∈ ws →
        WorkerStatus.Working id ct ∈ ws') ∧
      (∀ id ct, WorkerStatus.Working id ct ∈ ws' →
        WorkerStatus.Working id ct ∈ ws ∨ ct = t + g.costOf id b) := by
  intro ws
  induction ws with
  | nil =>
    intro g rest ws' g' hInv heq
    rw [assign_workers] at heq
    obtain ⟨rfl, rfl⟩ := Prod.mk.injEq .. ▸ heq
    exact ⟨hInv, rfl, rfl, List.Perm.refl _, fun id ct h => h,
      fun id ct h => Or.inl h⟩
  | cons w ws ih =>
    intro g rest ws' g' hInv heq
    cases w with
    | Idle =>
      cases hg : g.next with
      | none =>
        rw [assign_workers] at heq
        rw [hg] at heq
        dsimp only at heq
        cases hrec : assign_workers t b ws g with
        | mk ws2 g2 =>
          rw [hrec] at heq
          dsimp only at heq
          obtain ⟨rfl, rfl⟩ := Prod.mk.injEq .. ▸ heq
          have hInv' : Inv N g (workingIds ws ++ rest) := by
            have : workingIds (WorkerStatus.Idle :: ws) = workingIds ws := rfl
            rwa [this] at hInv
          obtain ⟨h1, h2, h3, h4, h5, h6⟩ := ih g rest ws2 g2 hInv' hrec
          refine ⟨h1, h2, h3, h4, ?_, ?_⟩
          · intro id ct hmem
            rcases List.mem_cons.mp hmem with hmem | hmem
            · cases hmem
            · exact List.mem_cons_of_mem _ (h5 id ct hmem)
          · intro id ct hmem
            rcases List.mem_cons.mp hmem with hmem | hmem
            · cases hmem
            · rcases h6 id ct hmem with h | h
              · exact Or.inl (List.mem_cons_of_mem _ h)
              · exact Or.inr h
      | some cg =>
        obtain ⟨c, g1⟩ := cg
        rw [assign_workers] at heq
        rw [hg] at heq
        dsimp only at heq
        cases hrec : assign_workers t b ws g1 with
        | mk ws2 g2 =>
          rw [hrec] at heq
          dsimp only at heq
          obtain ⟨rfl, rfl⟩ := Prod.mk.injEq .. ▸ heq
          have hInv0 : Inv N g (workingIds ws ++ rest) := by
            have : workingIds (WorkerStatus.Idle :: ws) = workingIds ws := rfl
            rwa [this] at hInv
          obtain ⟨hInv1, hcq⟩ := hInv0.pop hg
          obtain ⟨_, _, hq1, hn1, hc1⟩ := next_spec g c g1 hg
          have hInv1' : Inv N g1 (workingIds ws ++ (c :: rest)) := by
            refine hInv1.perm g1 _ ?_ rfl rfl
            exact List.Perm.append_left g1.exec_queue List.perm_middle
          obtain ⟨h1, h2, h3, h4, h5, h6⟩ := ih g1 (c :: rest) ws2 g2 hInv1' hrec
          have hwids : workingIds
              (WorkerStatus.Working c (t + g1.costOf c b) :: ws2) ++ rest =
              (c :: workingIds ws2) ++ rest := rfl
          refine ⟨?_, ?_, ?_, ?_, ?_, ?_⟩
          · refine h1.perm _ _ ?_ rfl rfl
            rw [hwids]
            exact List.Perm.append_left g2.exec_queue List.perm_middle.symm
          · rw [h2, hc1]
          · rw [h3, hn1]
          · rw [hwids]
            have hp1 : (g2.exec_queue ++ ((c :: workingIds ws2) ++ rest)).Perm
                (g2.exec_queue ++ (workingIds ws2 ++ (c :: rest))) := by
              refine List.Perm.append_left g2.exec_queue ?_
              exact List.perm_middle.symm
            have hp2 : (g1.exec_queue ++ (workingIds ws ++ (c :: rest))).Perm
                (g.exec_queue ++ (workingIds ws ++ rest)) := by
              rw [hq1]
              have hstep : (g.exec_queue.erase c ++ (workingIds ws ++ (c :: rest))).Perm
                  (g.exec_queue.erase c ++ (c :: (workingIds ws ++ rest))) :=
                List.Perm.append_left _ List.perm_middle
              refine hstep.trans ?_
              refine List.Perm.trans List.perm_middle ?_
              exact (List.perm_cons_erase hcq).symm.append_right _
            exact hp1.trans (h4.trans hp2)
          · intro id ct hmem
            rcases List.mem_cons.mp hmem with hmem | hmem
            · cases hmem
            · exact List.mem_cons_of_mem _ (h5 id ct hmem)
          · intro id ct hmem
            rcases List.mem_cons.mp hmem with hmem | hmem
            · injection hmem with he1 he2
              subst he1
              refine Or.inr ?_
              rw [he2, costOf_congr hn1]
            · rcases h6 id ct hmem with h | h
              · exact Or.inl (List.mem_cons_of_mem _ h)
              · refine Or.inr ?_
                rw [h, costOf_congr hn1]
    | Working wid wct =>
      rw [assign_workers] at heq
      cases hrec : assign_workers t b ws g with
      | mk ws2 g2 =>
        rw [hrec] at heq
        dsimp only at heq
        obtain ⟨rfl, rfl⟩ := Prod.mk.injEq .. ▸ heq
        have hInv' : Inv N g (workingIds ws ++ (wid :: rest)) := by
          refine hInv.perm g _ ?_ rfl rfl
          have : workingIds (WorkerStatus.Working wid wct :: ws) ++ rest =
              (wid :: workingIds ws) ++ rest := rfl
          rw [this]
          exact List.Perm.append_left g.exec_queue List.perm_middle
        obtain ⟨h1, h2, h3, h4, h5, h6⟩ := ih g (wid :: rest) ws2 g2 hInv' hrec
        have hwids : workingIds (WorkerStatus.Working wid wct :: ws2) ++ rest =
            (wid :: workingIds ws2) ++ rest := rfl
        refine ⟨?_, h2, h3, ?_, ?_, ?_⟩
        · refine h1.perm _ _ ?_ rfl rfl
          rw [hwids]
          exact List.Perm.append_left g2.exec_queue List.perm_middle.symm
        · rw [hwids]
          have hp1 : (g2.exec_queue ++ ((wid :: workingIds ws2) ++ rest)).Perm
              (g2.exec_queue ++ (workingIds ws2 ++ (wid :: rest))) :=
            List.Perm.append_left g2.exec_queue List.perm_middle.symm
          have hp2 : (g.exec_queue ++ (workingIds ws ++ (wid :: rest))).Perm
              (g.exec_queue ++ ((wid :: workingIds ws) ++ rest)) :=
            List.Perm.append_left g.exec_queue List.perm_middle
          exact hp1.trans (h4.trans hp2)
        · intro id ct hmem
          rcases List.mem_cons.mp hmem with hmem | hmem
          · exact List.mem_cons.mpr (Or.inl hmem)
          · exact List.mem_cons_of_mem _ (h5 id ct hmem)
        · intro id ct hmem
          rcases List.mem_cons.mp hmem with hmem | hmem
          · exact Or.inl (List.mem_cons.mpr (Or.inl hmem))
          · rcases h6 id ct hmem with h | h
            · exact Or.inl (List.mem_cons_of_mem _ h)
            · exact Or.inr h

/-- The ids pushed during one completion phase. -/
def complete_workers_pushes (time : Nat) : List WorkerStatus → Graph → List Char
  | [], _ => []
  | .Idle :: ws, g => complete_workers_pushes time ws g
  | .Working id ct :: ws, g =>
    if ct ≤ time then
      g.newlyReady id ++ complete_workers_pushes time ws (g.complete_node id)
    else complete_workers_pushes time ws g

/-- Per-event push discipline during one completion phase (see
`order_run_ok`). -/
def complete_workers_ok (time : Nat) : List WorkerStatus → Graph → Prop
  | [], _ => True
  | .Idle :: ws, g => complete_workers_ok time ws g
  | .Working id ct :: ws, g =>
    if ct ≤ time then
      (∀ u ∈ g.newlyReady id,
        u ∉ g.exec_queue ∧ u ∉ g.completed ∧ u ≠ id ∧ id ∉ g.completed ∧
        id ∈ depsOf g.nodes u ∧
        ∀ d ∈ depsOf g.nodes u, d ∈ g.completed ++ [id]) ∧
      complete_workers_ok time ws (g.complete_node id)
    else complete_workers_ok time ws g

/-- The completion phase preserves the invariant: due workers complete
their ids (moving them from the working multiset into the completed
list) and push the newly ready ids; surviving workers are exactly the
not-yet-due ones. -/
theorem complete_workers_spec (N : List Node) (hN : NodesWF N) (t : Nat) :
    ∀ (ws : List WorkerStatus) (g : Graph) (rest : List Char)
      (ws' : List WorkerStatus) (g' : Graph),
      Inv N g (workingIds ws ++ rest) →
      complete_workers t ws g = (ws', g') →
      Inv N g' (workingIds ws' ++ rest) ∧
      g'.nodes = g.nodes ∧
      (∃ done, g'.completed = g.completed ++ done ∧
        (workingIds ws).Perm (workingIds ws' ++ done) ∧
        (∀ id ct, WorkerStatus.Working id ct ∈ ws → ct ≤ t → id ∈ done)) ∧
      g'.exec_queue = g.exec_queue ++ complete_workers_pushes t ws g ∧
      complete_workers_ok t ws g ∧
      (∀ id ct, WorkerStatus.Working id ct ∈ ws' →
        WorkerStatus.Working id ct ∈ ws ∧ ¬ ct ≤ t) := by
  intro ws
  induction ws with
  | nil =>
    intro g rest ws' g' hInv heq
    rw [complete_workers] at heq
    obtain ⟨rfl, rfl⟩ := Prod.mk.injEq .. ▸ heq
    refine ⟨hInv, rfl, ⟨[], by simp, by simp, by intro id ct h; cases h⟩, by
      rw [complete_workers_pushes]; simp, trivial, ?_⟩
    intro id ct h
    cases h
  | cons w ws ih =>
    intro g rest ws' g' hInv heq
    cases w with
    | Idle =>
      rw [complete_workers] at heq
      cases hrec : complete_workers t ws g with
      | mk ws2 g2 =>
        rw [hrec] at heq
        dsimp only at heq
        obtain ⟨rfl, rfl⟩ := Prod.mk.injEq .. ▸ heq
        obtain ⟨h1, h2, ⟨done2, hcd2, hpm2, hdue2⟩, h4, h5, h6⟩ :=
          ih g rest ws2 g2 hInv hrec
        refine ⟨h1, h2, ⟨done2, hcd2, hpm2, ?_⟩, ?_, ?_, ?_⟩
        · intro id ct hmem hct
          rcases List.mem_cons.mp hmem with hmem | hmem
          · cases hmem
          · exact hdue2 id ct hmem hct
        · rw [complete_workers_pushes]
          exact h4
        · rw [complete_workers_ok]
          exact h5
        · intro id ct hmem
          rcases List.mem_cons.mp hmem with hmem | hmem
          · cases hmem
          · obtain ⟨ha, hb⟩ := h6 id ct hmem
            exact ⟨List.mem_cons_of_mem _ ha, hb⟩
    | Working wid wct =>
      rw [complete_workers] at heq
      by_cases hle : wct ≤ t
      · rw [if_pos hle] at heq
        cases hrec : complete_workers t ws (g.complete_node wid) with
        | mk ws2 g2 =>
          rw [hrec] at heq
          dsimp only at heq
          obtain ⟨rfl, rfl⟩ := Prod.mk.injEq .. ▸ heq
          have hcmem : wid ∈ workingIds (WorkerStatus.Working wid wct :: ws) ++ rest := by
            show wid ∈ wid :: (workingIds ws ++ rest)
            exact List.mem_cons_self _ _
          obtain ⟨hInv2, heq2, hnodupnew, hpush⟩ := Inv.complete hN hInv hcmem
          have herase : (workingIds (WorkerStatus.Working wid wct :: ws) ++ rest).erase wid
              = workingIds ws ++ rest := by
            show (wid :: (workingIds ws ++ rest)).erase wid = workingIds ws ++ rest
            exact List.erase_cons_head _ _
          rw [herase] at hInv2
          obtain ⟨h1, h2, ⟨done2, hcd2, hpm2, hdue2⟩, h4, h5, h6⟩ :=
            ih (g.complete_node wid) rest ws2 g2 hInv2 hrec
          have hnodes2 : (g.complete_node wid).nodes = g.nodes := by rw [heq2]
          have hcomp2 : (g.complete_node wid).completed = g.completed ++ [wid] := by
            rw [heq2]
          have hqueue2 : (g.complete_node wid).exec_queue
              = g.exec_queue ++ g.newlyReady wid := by rw [heq2]
          have hwidnc : wid ∉ g.completed :=
            hInv.disj wid (List.mem_append.mpr (Or.inr hcmem))
          refine ⟨h1, ?_, ?_, ?_, ?_, ?_⟩
          · rw [h2, hnodes2]
          · refine ⟨wid :: done2, ?_, ?_, ?_⟩
            · rw [hcd2, hcomp2, List.append_assoc]
              rfl
            · show (wid :: workingIds ws).Perm (workingIds ws2 ++ (wid :: done2))
              exact (List.Perm.cons wid hpm2).trans List.perm_middle.symm
            · intro id ct hmem hct
              rcases List.mem_cons.mp hmem with hmem | hmem
              · injection hmem with e1 _
                rw [e1]
                exact List.mem_cons_self _ _
              · exact List.mem_cons_of_mem _ (hdue2 id ct hmem hct)
          · rw [h4, hqueue2, List.append_assoc]
            rw [complete_workers_pushes, if_pos hle]
          · rw [complete_workers_ok, if_pos hle]
            refine ⟨?_, h5⟩
            intro u hu
            obtain ⟨p1, p2, p3, p4, p5, p6⟩ := hpush u hu
            rw [hInv.hnodes]
            exact ⟨p1, p3, p4, hwidnc, p5, p6⟩
          · intro id ct hmem
            rcases List.mem_cons.mp hmem with hmem | hmem
            · cases hmem
            · obtain ⟨ha, hb⟩ := h6 id ct hmem
              exact ⟨List.mem_cons_of_mem _ ha, hb⟩
      · rw [if_neg hle] at heq
        cases hrec : complete_workers t ws g with
        | mk ws2 g2 =>
          rw [hrec] at heq
          dsimp only at heq
          obtain ⟨rfl, rfl⟩ := Prod.mk.injEq .. ▸ heq
          have hInv' : Inv N g (workingIds ws ++ (wid :: rest)) := by
            refine hInv.perm g _ ?_ rfl rfl
            show (g.exec_queue ++ (workingIds ws ++ wid :: rest)).Perm
              (g.exec_queue ++ (wid :: (workingIds ws ++ rest)))
            exact List.Perm.append_left g.exec_queue List.perm_middle
          obtain ⟨h1, h2, ⟨done2, hcd2, hpm2, hdue2⟩, h4, h5, h6⟩ :=
            ih g (wid :: rest) ws2 g2 hInv' hrec
          refine ⟨?_, h2, ?_, ?_, ?_, ?_⟩
          · refine h1.perm _ _ ?_ rfl rfl
            show (g2.exec_queue ++ (wid :: (workingIds ws2 ++ rest))).Perm
              (g2.exec_queue ++ (workingIds ws2 ++ wid :: rest))
            exact List.Perm.append_left g2.exec_queue List.perm_middle.symm
          · refine ⟨done2, hcd2, ?_, ?_⟩
            · show (wid :: workingIds ws).Perm ((wid :: workingIds ws2) ++ done2)
              exact List.Perm.cons wid hpm2
            · intro id ct hmem hct
              rcases List.mem_cons.mp hmem with hmem | hmem
              · injection hmem with e1 e2
                subst e2
                exact absurd hct hle
              · exact hdue2 id ct hmem hct
          · rw [complete_workers_pushes, if_neg hle]
            exact h4
          · rw [complete_workers_ok, if_neg hle]
            exact h5
          · intro id ct hmem
            rcases List.mem_cons.mp hmem with hmem | hmem
            · injection hmem with e1 e2
              subst e1
              subst e2
              exact ⟨List.mem_cons_self _ _, hle⟩
            · obtain ⟨ha, hb⟩ := h6 id ct hmem
              exact ⟨List.mem_cons_of_mem _ ha, hb⟩

theorem Inv_pad {N : List Node} {g : Graph} {p : List Char} (h : Inv N g p) :
    Inv N g (p ++ []) := by
  rw [List.append_nil]
  exact h

theorem Inv_unpad {N : List Node} {g : Graph} {p : List Char}
    (h : Inv N g (p ++ [])) : Inv N g p := by
  rwa [List.append_nil] at h

/-- All ids pushed onto the frontier during a run of the worker pool. -/
def exec_time_pushes (b : Nat) : Nat → Graph → List WorkerStatus → Nat → List Char
  | 0, _, _, _ => []
  | fuel + 1, g, workers, time =>
    match assign_workers time b workers g with
    | (workers1, g1) =>
      if workers1.all WorkerStatus.isIdle then []
      else
        match complete_workers time workers1 g1 with
        | (workers2, g2) =>
          complete_workers_pushes time workers1 g1 ++
            exec_time_pushes b fuel g2 workers2 (time + 1)

/-- Per-event push discipline along a worker-pool run. -/
def time_run_ok (b : Nat) : Nat → Graph → List WorkerStatus → Nat → Prop
  | 0, _, _, _ => True
  | fuel + 1, g, workers, time =>
    match assign_workers time b workers g with
    | (workers1, g1) =>
      if workers1.all WorkerStatus.isIdle then True
      else
        complete_workers_ok time workers1 g1 ∧
        (match complete_workers time workers1 g1 with
         | (workers2, g2) => time_run_ok b fuel g2 workers2 (time + 1))

theorem time_pushes_not_completed (N : List Node) (hN : NodesWF N) :
    ∀ fuel (g : Graph) (ws : List WorkerStatus) (t b : Nat),
      Inv N g (workingIds ws) →
      ∀ x ∈ exec_time_pushes b fuel g ws t, x ∉ g.completed := by
  intro fuel
  induction fuel with
  | zero => intro g ws t b _ x hx; cases hx
  | succ n ih =>
    intro g ws t b hInv x hx
    rw [exec_time_pushes] at hx
    cases hA : assign_workers t b ws g with
    | mk ws1 g1 =>
      rw [hA] at hx
      dsimp only at hx
      obtain ⟨hI1, hc1, hn1, hperm1, _, _⟩ :=
        assign_workers_spec N t b ws g [] ws1 g1 (Inv_pad hInv) hA
      by_cases hidle : ws1.all WorkerStatus.isIdle
      · rw [if_pos hidle] at hx
        cases hx
      · rw [if_neg hidle] at hx
        cases hC : complete_workers t ws1 g1 with
        | mk ws2 g2 =>
          rw [hC] at hx
          dsimp only at hx
          obtain ⟨hI2, hn2, ⟨done, hcd, hpm, hdue⟩, hq2, hok, hsurv⟩ :=
            complete_workers_spec N hN t ws1 g1 [] ws2 g2 hI1 hC
          have hg2comp : x ∉ g2.completed → x ∉ g.completed := by
            intro hx2 hxc
            rw [hcd, hc1] at hx2
            exact hx2 (List.mem_append.mpr (Or.inl hxc))
          rcases List.mem_append.mp hx with hx | hx
          · refine hg2comp ?_
            have hxq2 : x ∈ g2.exec_queue := by
              rw [hq2]
              exact List.mem_append.mpr (Or.inr hx)
            exact (Inv_unpad hI2).disj x (List.mem_append.mpr (Or.inl hxq2))
          · exact hg2comp (ih g2 ws2 (t + 1) b (Inv_unpad hI2) x hx)

theorem time_pushes_nodup (N : List Node) (hN : NodesWF N) :
    ∀ fuel (g : Graph) (ws : List WorkerStatus) (t b : Nat),
      Inv N g (workingIds ws) →
      ((g.exec_queue ++ workingIds ws) ++ exec_time_pushes b fuel g ws t).Nodup := by
  intro fuel
  induction fuel with
  | zero =>
    intro g ws t b hInv
    rw [exec_time_pushes, List.append_nil]
    exact hInv.nodup_f
  | succ n ih =>
    intro g ws t b hInv
    rw [exec_time_pushes]
    cases hA : assign_workers t b ws g with
    | mk ws1 g1 =>
      dsimp only
      obtain ⟨hI1, hc1, hn1, hperm1, _, _⟩ :=
        assign_workers_spec N t b ws g [] ws1 g1 (Inv_pad hInv) hA
      by_cases hidle : ws1.all WorkerStatus.isIdle
      · rw [if_pos hidle, List.append_nil]
        exact hInv.nodup_f
      · rw [if_neg hidle]
        cases hC : complete_workers t ws1 g1 with
        | mk ws2 g2 =>
          dsimp only
          obtain ⟨hI2, hn2, ⟨done, hcd, hpm, hdue⟩, hq2, hok, hsurv⟩ :=
            complete_workers_spec N hN t ws1 g1 [] ws2 g2 hI1 hC
          have hIH := ih g2 ws2 (t + 1) b (Inv_unpad hI2)
          -- the target is a permutation of (new frontier ++ later pushes) ++ done
          have hfr1 : (g1.exec_queue ++ workingIds ws1).Perm
              (g.exec_queue ++ workingIds ws) := by
            have := hperm1
            rwa [List.append_nil, List.append_nil] at this
          have hdone_nodup : done.Nodup := by
            have := (Inv_unpad hI2).nodup_c
            rw [hcd] at this
            exact ((List.nodup_append.mp this).2).1
          have hdone_sub : ∀ x ∈ done, x ∈ g2.completed := by
            intro x hx
            rw [hcd]
            exact List.mem_append.mpr (Or.inr hx)
          have hperm_main : ((g.exec_queue ++ workingIds ws) ++
              (complete_workers_pushes t ws1 g1 ++
                exec_time_pushes b n g2 ws2 (t + 1))).Perm
              (((g2.exec_queue ++ workingIds ws2) ++
                exec_time_pushes b n g2 ws2 (t + 1)) ++ done) := by
            refine Multiset.coe_eq_coe.mp ?_
            have e1 := Multiset.coe_eq_coe.mpr hfr1
            have e2 := Multiset.coe_eq_coe.mpr hpm
            have e3 : (g2.exec_queue : Multiset Char) =
                ↑g1.exec_queue + ↑(complete_workers_pushes t ws1 g1) := by
              rw [hq2, Multiset.coe_add]
            simp only [← Multiset.coe_add] at e1 e2 ⊢
            rw [e3, ← e1, e2]
            abel
          rw [hperm_main.nodup_iff, List.nodup_append]
          refine ⟨hIH, hdone_nodup, ?_⟩
          intro x hx hx2
          have hxc2 : x ∈ g2.completed := hdone_sub x hx2
          rcases List.mem_append.mp hx with hx | hx
          · exact (Inv_unpad hI2).disj x hx hxc2
          · exact time_pushes_not_completed N hN n g2 ws2 (t + 1) b
              (Inv_unpad hI2) x hx hxc2

theorem time_run_ok_holds (N : List Node) (hN : NodesWF N) :
    ∀ fuel (g : Graph) (ws : List WorkerStatus) (t b : Nat),
      Inv N g (workingIds ws) → time_run_ok b fuel g ws t := by
  intro fuel
  induction fuel with
  | zero => intro g ws t b _; trivial
  | succ n ih =>
    intro g ws t b hInv
    rw [time_run_ok]
    cases hA : assign_workers t b ws g with
    | mk ws1 g1 =>
      dsimp only
      obtain ⟨hI1, hc1, hn1, hperm1, _, _⟩ :=
        assign_workers_spec N t b ws g [] ws1 g1 (Inv_pad hInv) hA
      by_cases hidle : ws1.all WorkerStatus.isIdle
      · rw [if_pos hidle]
        trivial
      · rw [if_neg hidle]
        cases hC : complete_workers t ws1 g1 with
        | mk ws2 g2 =>
          dsimp only
          obtain ⟨hI2, hn2, _, hq2, hok, hsurv⟩ :=
            complete_workers_spec N hN t ws1 g1 [] ws2 g2 hI1 hC
          exact ⟨hok, ih g2 ws2 (t + 1) b (Inv_unpad hI2)⟩

theorem workingIds_replicate (w : Nat) :
    workingIds (List.replicate w WorkerStatus.Idle) = [] := by
  induction w with
  | zero => rfl
  | succ n ih => rw [List.replicate_succ, workingIds, ih]

/-- C8: on an acyclic input graph, along any run of either scheduler the
frontier history (the initial zero-dependency roots plus every later
push) never repeats an identifier; each push happens at the completion
of the pushed id's last uncompleted dependency, never while the id is
pending or completed; and the initial frontier holds exactly the
zero-dependency tasks. -/
theorem push_discipline (edges : List (Char × Char))
    (_hacyc : Acyclic (Graph.new edges)) (fuel w b : Nat) :
    ((Graph.new edges).exec_queue ++
        exec_order_pushes fuel (Graph.new edges)).Nodup ∧
    order_run_ok fuel (Graph.new edges) ∧
    ((Graph.new edges).exec_queue ++
        exec_time_pushes b fuel (Graph.new edges) (List.replicate w .Idle) 0).Nodup ∧
    time_run_ok b fuel (Graph.new edges) (List.replicate w .Idle) 0 ∧
    (∀ n ∈ (Graph.new edges).nodes, n.dependencies = [] ↔
      n.id ∈ (Graph.new edges).exec_queue) := by
  have hN := NodesWF_new edges
  have hInv := Inv_new edges
  have hInvW : Inv (Graph.new edges).nodes (Graph.new edges)
      (workingIds (List.replicate w .Idle)) := by
    rw [workingIds_replicate]
    exact hInv
  refine ⟨order_pushes_nodup _ hN fuel _ hInv,
    order_run_ok_holds _ hN fuel _ hInv, ?_,
    time_run_ok_holds _ hN fuel _ _ 0 b hInvW, ?_⟩
  · have := time_pushes_nodup _ hN fuel _ _ 0 b hInvW
    rwa [workingIds_replicate, List.append_nil] at this
  · intro n hn
    constructor
    · intro hdeps
      show n.id ∈ ((Graph.new edges).nodes.filter
        (fun n => n.dependencies.isEmpty)).map Node.id
      exact List.mem_map_of_mem Node.id (List.mem_filter.mpr ⟨hn, by simp [hdeps]⟩)
    · intro hq
      have hq' : n.id ∈ ((Graph.new edges).nodes.filter
          (fun m => m.dependencies.isEmpty)).map Node.id := hq
      obtain ⟨m, hm, hmid⟩ := List.mem_map.mp hq'
      have hmmem := List.mem_of_mem_filter hm
      have hmdeps : m.dependencies.isEmpty := by
        simpa using (List.mem_filter.mp hm).2
      have h1 : findN (Graph.new edges).nodes n.id = some n :=
        findN_of_mem hN.nodup_ids hn
      have h2 : findN (Graph.new edges).nodes m.id = some m :=
        findN_of_mem hN.nodup_ids hmmem
      rw [hmid, h1] at h2
      injection h2 with hmn
      rw [hmn]
      exact List.isEmpty_iff.mp hmdeps

theorem push_discipline_witness :
    Acyclic (Graph.new exampleEdges) ∧
    (((Graph.new exampleEdges).exec_queue ++
        exec_order_pushes 10 (Graph.new exampleEdges)).Nodup ∧
      order_run_ok 10 (Graph.new exampleEdges) ∧
      ((Graph.new exampleEdges).exec_queue ++
        exec_time_pushes 0 10 (Graph.new exampleEdges)
          (List.replicate 2 .Idle) 0).Nodup ∧
      time_run_ok 0 10 (Graph.new exampleEdges) (List.replicate 2 .Idle) 0 ∧
      (∀ n ∈ (Graph.new exampleEdges).nodes, n.dependencies = [] ↔
        n.id ∈ (Graph.new exampleEdges).exec_queue)) := by
  have hacyc : Acyclic (Graph.new exampleEdges) :=
    ⟨fun c => if c = 'C' then 0 else if c = 'A' ∨ c = 'F' then 1
      else if c = 'E' then 3 else 2, by decide⟩
  exact ⟨hacyc, push_discipline exampleEdges hacyc 10 2 0⟩

/-! ## Termination of both schedulers on every input (claim C6) -/

/-- With fuel one more than the node count, the sequential scheduler
returns on every graph built by `Graph.new` — cyclic inputs included. -/
theorem execution_order_terminates (edges : List (Char × Char)) :
    ∃ res g', execution_order ((Graph.new edges).nodes.length + 1)
      (Graph.new edges) = some (res, g') := by
  obtain ⟨res, g', hrun, _⟩ :=
    execution_order_go_spec (Graph.new edges).nodes (NodesWF_new edges)
      ((Graph.new edges).nodes.length + 1) (Graph.new edges) [] (Inv_new edges)
      (Nat.sub_le _ _) (fun x => by rw [show (Graph.new edges).completed = [] from rfl])
      List.nodup_nil List.Pairwise.nil
  exact ⟨res, g', hrun⟩

/-- The largest task cost in the graph. -/
def maxCost (N : List Node) (b : Nat) : Nat :=
  (N.map (fun n => n.cost b)).foldr max 0

theorem cost_le_maxCost {N : List Node} {n : Node} (hn : n ∈ N) (b : Nat) :
    n.cost b ≤ maxCost N b := by
  induction N with
  | nil => cases hn
  | cons m rest ih =>
    rcases List.mem_cons.mp hn with rfl | hn'
    · exact le_max_left _ _
    · exact le_trans (ih hn') (le_max_right _ _)

theorem costOf_le_maxCost {N : List Node} {g : Graph} (hg : g.nodes = N)
    (id : Char) (b : Nat) : g.costOf id b ≤ maxCost N b := by
  unfold Graph.costOf
  rw [graph_find_eq, hg]
  cases hf : findN N id with
  | none => exact Nat.zero_le _
  | some n => exact cost_le_maxCost (findN_mem hf) b

/-- The minimum remaining work among working workers (`cap` when no
worker is working). -/
def minSlack (t cap : Nat) : List WorkerStatus → Nat
  | [] => cap
  | .Idle :: ws => minSlack t cap ws
  | .Working _ ct :: ws => min (ct - t) (minSlack t cap ws)

theorem minSlack_le_cap (t cap : Nat) : ∀ ws, minSlack t cap ws ≤ cap := by
  intro ws
  induction ws with
  | nil => exact le_refl _
  | cons w ws ih =>
    cases w with
    | Idle => exact ih
    | Working id ct =>
      rw [minSlack]
      omega

theorem assign_minSlack (t b cap : Nat) :
    ∀ ws g ws1 g1, assign_workers t b ws g = (ws1, g1) →
      minSlack t cap ws1 ≤ minSlack t cap ws := by
  intro ws
  induction ws with
  | nil =>
    intro g ws1 g1 heq
    rw [assign_workers] at heq
    obtain ⟨rfl, rfl⟩ := Prod.mk.injEq .. ▸ heq
    exact le_refl _
  | cons w ws ih =>
    intro g ws1 g1 heq
    cases w with
    | Idle =>
      rw [assign_workers] at heq
      cases hg : g.next with
      | none =>
        rw [hg] at heq
        dsimp only at heq
        cases hrec : assign_workers t b ws g with
        | mk ws2 g2 =>
          rw [hrec] at heq
          dsimp only at heq
          obtain ⟨rfl, rfl⟩ := Prod.mk.injEq .. ▸ heq
          exact ih g ws2 g2 hrec
      | some cg =>
        obtain ⟨c, gp⟩ := cg
        rw [hg] at heq
        dsimp only at heq
        cases hrec : assign_workers t b ws gp with
        | mk ws2 g2 =>
          rw [hrec] at heq
          dsimp only at heq
          obtain ⟨rfl, rfl⟩ := Prod.mk.injEq .. ▸ heq
          have := ih gp ws2 g2 hrec
          rw [minSlack]
          show min _ (minSlack t cap ws2) ≤ minSlack t cap ws
          omega
    | Working wid wct =>
      rw [assign_workers] at heq
      cases hrec : assign_workers t b ws g with
      | mk ws2 g2 =>
        rw [hrec] at heq
        dsimp only at heq
        obtain ⟨rfl, rfl⟩ := Prod.mk.injEq .. ▸ heq
        have := ih g ws2 g2 hrec
        rw [minSlack, minSlack]
        omega

theorem minSlack_no_working (t cap : Nat) :
    ∀ ws, (∀ id ct, WorkerStatus.Working id ct ∈ ws → False) →
      minSlack t cap ws = cap := by
  intro ws
  induction ws with
  | nil => intro _; rfl
  | cons w ws ih =>
    intro hnone
    cases w with
    | Idle =>
      rw [minSlack]
      exact ih (fun id ct h => hnone id ct (List.mem_cons_of_mem _ h))
    | Working id ct =>
      exact absurd (List.mem_cons_self _ _) (fun hc => hnone id ct hc)

theorem minSlack_succ_lt (t cap : Nat) :
    ∀ ws, (∃ id ct, WorkerStatus.Working id ct ∈ ws) →
      (∀ id ct, WorkerStatus.Working id ct ∈ ws → t < ct ∧ ct - t ≤ cap) →
      minSlack (t + 1) cap ws + 1 ≤ minSlack t cap ws := by
  intro ws
  induction ws with
  | nil =>
    rintro ⟨id, ct, h⟩
    cases h
  | cons w ws ih =>
    rintro ⟨id, ct, hmem⟩ hall
    cases w with
    | Idle =>
      rcases List.mem_cons.mp hmem with h | h
      · cases h
      · refine ih ⟨id, ct, h⟩ ?_
        intro id' ct' h'
        exact hall id' ct' (List.mem_cons_of_mem _ h')
    | Working wid wct =>
      have hw := hall wid wct (List.mem_cons_self _ _)
      rw [minSlack, minSlack]
      by_cases hex : ∃ id' ct', WorkerStatus.Working id' ct' ∈ ws
      · have := ih hex (fun id' ct' h' => hall id' ct' (List.mem_cons_of_mem _ h'))
        omega
      · push_neg at hex
        rw [minSlack_no_working (t + 1) cap ws (fun id' ct' h' => hex id' ct' h'),
          minSlack_no_working t cap ws (fun id' ct' h' => hex id' ct' h')]
        omega

theorem complete_workers_no_due (t : Nat) :
    ∀ ws (g : Graph), (∀ id ct, WorkerStatus.Working id ct ∈ ws → ¬ ct ≤ t) →
      complete_workers t ws g = (ws, g) := by
  intro ws
  induction ws with
  | nil => intro g _; rfl
  | cons w ws ih =>
    intro g hnone
    cases w with
    | Idle =>
      rw [complete_workers,
        ih g (fun id ct h => hnone id ct (List.mem_cons_of_mem _ h))]
    | Working wid wct =>
      have hct := hnone wid wct (List.mem_cons_self _ _)
      rw [complete_workers, if_neg hct,
        ih g (fun id ct h => hnone id ct (List.mem_cons_of_mem _ h))]

theorem not_all_idle_exists {ws : List WorkerStatus}
    (h : ¬ ws.all WorkerStatus.isIdle = true) :
    ∃ id ct, WorkerStatus.Working id ct ∈ ws := by
  induction ws with
  | nil => exact absurd rfl h
  | cons w ws ih =>
    cases w with
    | Idle =>
      have : ¬ ws.all WorkerStatus.isIdle = true := by
        intro h'
        exact h (by simp [List.all_cons, WorkerStatus.isIdle, h'])
      obtain ⟨id, ct, hm⟩ := ih this
      exact ⟨id, ct, List.mem_cons_of_mem _ hm⟩
    | Working id ct => exact ⟨id, ct, List.mem_cons_self _ _⟩

/-- Main termination lemma for the worker pool: the simulation loop
returns within `(uncompleted count) * (maxCost + 2) + slack` iterations,
on every graph built by `Graph.new` — cyclic inputs included. -/
theorem execution_time_go_terminates (N : List Node) (hN : NodesWF N) (b : Nat) :
    ∀ μ (g : Graph) (ws : List WorkerStatus) (t : Nat),
      Inv N g (workingIds ws) →
      (∀ id ct, WorkerStatus.Working id ct ∈ ws → ct ≤ t + maxCost N b) →
      (N.length - g.completed.length) * (maxCost N b + 2) +
        minSlack t (maxCost N b + 1) ws < μ →
      ∃ time g', execution_time_go b μ g ws t = some (time, g') := by
  intro μ
  induction μ with
  | zero =>
    intro g ws t _ _ hm
    omega
  | succ k ihμ =>
    intro g ws t hInv hWB hm
    rw [execution_time_go]
    cases hA : assign_workers t b ws g with
    | mk ws1 g1 =>
      dsimp only
      obtain ⟨hI1, hc1, hn1, hperm1, h5, h6⟩ :=
        assign_workers_spec N t b ws g [] ws1 g1 (Inv_pad hInv) hA
      by_cases hidle : ws1.all WorkerStatus.isIdle
      · rw [if_pos hidle]
        exact ⟨t, g1, rfl⟩
      · rw [if_neg hidle]
        cases hC : complete_workers t ws1 g1 with
        | mk ws2 g2 =>
          dsimp only
          obtain ⟨hI2, hn2, ⟨done, hcd, hpm, hdue⟩, hq2, hok, hsurv⟩ :=
            complete_workers_spec N hN t ws1 g1 [] ws2 g2 hI1 hC
          have hWB1 : ∀ id ct, WorkerStatus.Working id ct ∈ ws1 →
              ct ≤ t + maxCost N b := by
            intro id ct hmem
            rcases h6 id ct hmem with h | h
            · exact hWB id ct h
            · have := costOf_le_maxCost (show g.nodes = N from hInv.hnodes) id b
              omega
          have hWB2 : ∀ id ct, WorkerStatus.Working id ct ∈ ws2 →
              ct ≤ (t + 1) + maxCost N b := by
            intro id ct hmem
            have := hWB1 id ct (hsurv id ct hmem).1
            omega
          by_cases hdone : done = []
          · have hnodue : ∀ id ct, WorkerStatus.Working id ct ∈ ws1 → ¬ ct ≤ t := by
              intro id ct hmem hct
              have := hdue id ct hmem hct
              rw [hdone] at this
              cases this
            have heqC : complete_workers t ws1 g1 = (ws1, g1) :=
              complete_workers_no_due t ws1 g1 hnodue
            have heq12 : (ws2, g2) = (ws1, g1) := hC.symm.trans heqC
            obtain ⟨e1, e2⟩ := Prod.mk.injEq .. ▸ heq12
            subst e1
            subst e2
            have hexw : ∃ id ct, WorkerStatus.Working id ct ∈ ws2 :=
              not_all_idle_exists hidle
            have hms : minSlack (t + 1) (maxCost N b + 1) ws2 + 1 ≤
                minSlack t (maxCost N b + 1) ws2 := by
              refine minSlack_succ_lt t (maxCost N b + 1) ws2 hexw ?_
              intro id ct hmem
              have h1 := hnodue id ct hmem
              have h2 := hWB1 id ct hmem
              omega
            have hms2 : minSlack t (maxCost N b + 1) ws2 ≤
                minSlack t (maxCost N b + 1) ws :=
              assign_minSlack t b (maxCost N b + 1) ws g ws2 g2 hA
            refine ihμ g2 ws2 (t + 1) (Inv_unpad hI2) hWB2 ?_
            have hcc : g2.completed = g.completed := by
              rw [hcd, hdone, List.append_nil, hc1]
            rw [hcc]
            generalize (N.length - g.completed.length) * (maxCost N b + 2) = P at hm ⊢
            omega
          · have hlen2 : g2.completed.length =
                g.completed.length + done.length := by
              rw [hcd, hc1, List.length_append]
            have hdlen : 1 ≤ done.length := List.length_pos.mpr hdone
            have hle2 : g2.completed.length ≤ N.length :=
              completed_length_le (Inv_unpad hI2)
            have hmsle : minSlack (t + 1) (maxCost N b + 1) ws2 ≤ maxCost N b + 1 :=
              minSlack_le_cap _ _ _
            refine ihμ g2 ws2 (t + 1) (Inv_unpad hI2) hWB2 ?_
            have hsplit : (N.length - g.completed.length) * (maxCost N b + 2) =
                (N.length - g2.completed.length) * (maxCost N b + 2) +
                  done.length * (maxCost N b + 2) := by
              rw [← Nat.add_mul]
              congr 1
              omega
            have hQ : maxCost N b + 2 ≤ done.length * (maxCost N b + 2) := by
              have := Nat.mul_le_mul_right (maxCost N b + 2) hdlen
              simpa using this
            rw [hsplit] at hm
            generalize (N.length - g2.completed.length) * (maxCost N b + 2) = P at hm ⊢
            generalize done.length * (maxCost N b + 2) = Q at hm hQ
            omega

/-- Both schedulers return on every graph built from an edge list,
cyclic inputs included. -/
theorem schedulers_always_terminate (edges : List (Char × Char)) (w b : Nat) :
    (∃ res g', execution_order ((Graph.new edges).nodes.length + 1)
      (Graph.new edges) = some (res, g')) ∧
    (∃ fuel time g', execution_time fuel (Graph.new edges) w b =
      some (time, g')) := by
  refine ⟨execution_order_terminates edges, ?_⟩
  have hInvW : Inv (Graph.new edges).nodes (Graph.new edges)
      (workingIds (List.replicate w .Idle)) := by
    rw [workingIds_replicate]
    exact Inv_new edges
  have hWB : ∀ id ct, WorkerStatus.Working id ct ∈ List.replicate w .Idle →
      ct ≤ 0 + maxCost (Graph.new edges).nodes b := by
    intro id ct hmem
    have := List.eq_of_mem_replicate hmem
    cases this
  obtain ⟨time, g', hrun⟩ :=
    execution_time_go_terminates (Graph.new edges).nodes (NodesWF_new edges) b
      (((Graph.new edges).nodes.length - (Graph.new edges).completed.length) *
          (maxCost (Graph.new edges).nodes b + 2) +
        minSlack 0 (maxCost (Graph.new edges).nodes b + 1)
          (List.replicate w .Idle) + 1)
      (Graph.new edges) (List.replicate w .Idle) 0 hInvW hWB (by omega)
  exact ⟨_, time, g', hrun⟩

/-- C6 amended: a cyclic input graph does not cause nontermination —
both schedulers terminate on every graph built from an edge list (the
argument of `schedulers_always_terminate` below needs no acyclicity);
tasks on a cycle simply never enter the frontier, so on the two-task
cycle A↔B both schedulers return immediately with nothing executed. -/
theorem cyclic_inputs_do_not_hang (edges : List (Char × Char)) (w b : Nat) :
    ((∃ res g', execution_order ((Graph.new edges).nodes.length + 1)
        (Graph.new edges) = some (res, g')) ∧
      (∃ fuel time g', execution_time fuel (Graph.new edges) w b =
        some (time, g'))) ∧
    (execution_order 1 cycleGraph = some ([], cycleGraph) ∧
      execution_time 1 cycleGraph 1 0 = some (0, cycleGraph)) :=
  ⟨schedulers_always_terminate edges w b, rfl, rfl⟩


/-! ## Pure chain graphs (claim C4) -/

/-- The edge list of a pure chain along `l`. -/
def chainEdges : List Char → List (Char × Char)
  | [] => []
  | [_] => []
  | a :: b :: rest => (a, b) :: chainEdges (b :: rest)

/-- The node list of a chain starting at `a` (whose dependency list is
`ds`) and continuing along `rest`. -/
def chainTail (a : Char) (ds : List Char) : List Char → List Node
  | [] => [⟨a, [], ds⟩]
  | b :: rest => ⟨a, [b], ds⟩ :: chainTail b [a] rest

/-- The elapsed time of a one-worker run over the tasks of `l`: the sum
of the task costs plus one tick per task. -/
def chainTime (l : List Char) : Nat :=
  (l.map (fun c => c.toNat - 'A'.toNat)).sum + l.length

theorem chainTime_cons (a : Char) (l : List Char) :
    chainTime (a :: l) = (a.toNat - 'A'.toNat + 1) + chainTime l := by
  unfold chainTime
  rw [List.map_cons, List.sum_cons, List.length_cons]
  omega

theorem upsert_fresh (c : Char) (f : Node → Node) :
    ∀ nodes, (∀ n ∈ nodes, n.id ≠ c) →
      upsert c f nodes = nodes ++ [f (Node.new c)] := by
  intro nodes
  induction nodes with
  | nil => intro _; rfl
  | cons n rest ih =>
    intro h
    rw [upsert, if_neg (h n (List.mem_cons_self _ _)),
      ih (fun m hm => h m (List.mem_cons_of_mem _ hm))]
    rfl

theorem upsert_last (c : Char) (f : Node → Node) (na : Node) (hid : na.id = c) :
    ∀ middle, (∀ n ∈ middle, n.id ≠ c) →
      upsert c f (middle ++ [na]) = middle ++ [f na] := by
  intro middle
  induction middle with
  | nil =>
    intro _
    rw [List.nil_append, upsert, if_pos hid]
    rfl
  | cons n rest ih =>
    intro h
    rw [List.cons_append, upsert, if_neg (h n (List.mem_cons_self _ _)),
      ih (fun m hm => h m (List.mem_cons_of_mem _ hm))]
    rfl

theorem chain_fold :
    ∀ (rest : List Char) (middle : List Node) (a : Char) (ds : List Char),
      (∀ n ∈ middle, n.id ∉ a :: rest) → (a :: rest).Nodup →
      List.foldl addEdge (middle ++ [⟨a, [], ds⟩]) (chainEdges (a :: rest)) =
        middle ++ chainTail a ds rest := by
  intro rest
  induction rest with
  | nil =>
    intro middle a ds _ _
    rw [chainEdges, List.foldl_nil, chainTail]
  | cons b rest' ih =>
    intro middle a ds hmid hnd
    have hab : a ≠ b := by
      have := (List.nodup_cons.mp hnd).1
      intro he
      exact this (he ▸ List.mem_cons_self _ _)
    have hstep : addEdge (middle ++ [⟨a, [], ds⟩]) (a, b) =
        (middle ++ [⟨a, [b], ds⟩]) ++ [⟨b, [], [a]⟩] := by
      unfold addEdge
      dsimp only
      rw [upsert_last a _ ⟨a, [], ds⟩ rfl middle
        (fun n hn he => hmid n hn (he ▸ List.mem_cons_self _ _))]
      have hfresh : ∀ n ∈ middle ++ [(⟨a, insertNew b [], ds⟩ : Node)], n.id ≠ b := by
        intro n hn
        rcases List.mem_append.mp hn with hn | hn
        · exact fun he => hmid n hn
            (he ▸ List.mem_cons_of_mem _ (List.mem_cons_self _ _))
        · rw [List.mem_singleton.mp hn]
          exact hab
      rw [upsert_fresh b _ _ hfresh]
      show (middle ++ [(⟨a, insertNew b [], ds⟩ : Node)]) ++
          [(⟨b, [], insertNew a []⟩ : Node)] = _
      rw [show insertNew b [] = [b] from rfl, show insertNew a [] = [a] from rfl]
    rw [chainEdges, List.foldl_cons, hstep]
    have hih := ih (middle ++ [⟨a, [b], ds⟩]) b [a] (by
      intro n hn
      rcases List.mem_append.mp hn with hn | hn
      · intro hmem
        exact hmid n hn (List.mem_cons_of_mem _ hmem)
      · rw [List.mem_singleton.mp hn]
        intro hmem
        exact (List.nodup_cons.mp hnd).1 hmem) (List.nodup_cons.mp hnd).2
    rw [hih, chainTail, List.append_assoc]
    rfl

theorem chainTail_no_roots (b a : Char) :
    ∀ rest, (chainTail b [a] rest).filter
      (fun n => n.dependencies.isEmpty) = [] := by
  intro rest
  induction rest generalizing b a with
  | nil => rfl
  | cons c rest' ih =>
    rw [chainTail, List.filter_cons]
    simp only [List.isEmpty_cons, if_false, Bool.false_eq_true, ite_false]
    exact ih c b

/-- `Graph.new` on a chain edge list builds exactly the chain graph with
the chain head as the only root. -/
theorem Graph_new_chain (x0 x1 : Char) (rest : List Char)
    (hnd : (x0 :: x1 :: rest).Nodup) :
    Graph.new (chainEdges (x0 :: x1 :: rest)) =
      ⟨chainTail x0 [] (x1 :: rest), [], [x0]⟩ := by
  have h01 : x0 ≠ x1 := by
    have := (List.nodup_cons.mp hnd).1
    intro he
    exact this (he ▸ List.mem_cons_self _ _)
  have h1 : List.foldl addEdge [] (chainEdges (x0 :: x1 :: rest)) =
      chainTail x0 [] (x1 :: rest) := by
    rw [chainEdges, List.foldl_cons]
    have hstep : addEdge [] (x0, x1) = [⟨x0, [x1], []⟩] ++ [⟨x1, [], [x0]⟩] := by
      unfold addEdge
      dsimp only
      rw [show upsert x0 (fun n =>
          { n with unlocks := insertNew x1 n.unlocks }) [] =
        [(⟨x0, insertNew x1 [], []⟩ : Node)] from rfl]
      have hfr : ∀ n ∈ [(⟨x0, insertNew x1 [], []⟩ : Node)], n.id ≠ x1 := by
        intro n hn
        rw [List.mem_singleton.mp hn]
        intro he
        exact h01 he
      rw [upsert_fresh x1 _ _ hfr]
      rfl
    rw [hstep]
    have := chain_fold rest [⟨x0, [x1], []⟩] x1 [x0] (by
      intro n hn
      rw [List.mem_singleton.mp hn]
      exact (List.nodup_cons.mp hnd).1) (List.nodup_cons.mp hnd).2
    rw [this]
    rw [chainTail]
    rfl
  have hroots : (chainTail x0 [] (x1 :: rest)).filter
      (fun n => n.dependencies.isEmpty) = [⟨x0, [x1], []⟩] := by
    rw [chainTail, List.filter_cons]
    simp only [List.isEmpty_nil, if_true]
    rw [chainTail_no_roots x1 x0 rest]
  unfold Graph.new
  dsimp only
  rw [h1, hroots]
  rfl

theorem findN_append_right (middle l2 : List Node) (c : Char)
    (h : ∀ n ∈ middle, n.id ≠ c) : findN (middle ++ l2) c = findN l2 c := by
  induction middle with
  | nil => rfl
  | cons n rest ih =>
    rw [List.cons_append, findN,
      List.find?_cons_of_neg _ (by simp [h n (List.mem_cons_self _ _)])]
    exact ih (fun m hm => h m (List.mem_cons_of_mem _ hm))

/-- The unlock list of the first node of a chain segment. -/
def chainUnl : List Char → List Char
  | [] => []
  | b :: _ => [b]

/-- The first node of a chain segment. -/
def chainHead (a : Char) (ds : List Char) (rest : List Char) : Node :=
  ⟨a, chainUnl rest, ds⟩

theorem findN_chainTail_head (a : Char) (ds : List Char) (rest : List Char) :
    findN (chainTail a ds rest) a = some (chainHead a ds rest) := by
  cases rest with
  | nil =>
    rw [chainTail, findN, List.find?_cons_of_pos _ (by simp)]
    rfl
  | cons b rest' =>
    rw [chainTail, findN, List.find?_cons_of_pos _ (by simp)]
    rfl

theorem go_congr_fuel (b : Nat) {f1 f2 : Nat} (h : f1 = f2) (g : Graph)
    (ws : List WorkerStatus) (t : Nat) :
    execution_time_go b f1 g ws t = execution_time_go b f2 g ws t := by
  rw [h]

/-- A single working worker is left alone by the loop until its
completion time arrives; at that tick it completes its node. -/
theorem busy_wait (b' : Nat) :
    ∀ k fuel (g : Graph) (a : Char) (ct time : Nat), ct = time + k →
      execution_time_go b' (fuel + (k + 1)) g [.Working a ct] time =
        execution_time_go b' fuel (g.complete_node a) [.Idle] (ct + 1) := by
  intro k
  induction k with
  | zero =>
    intro fuel g a ct time hct
    rw [execution_time_go]
    dsimp only [assign_workers]
    rw [if_neg (by simp [WorkerStatus.isIdle])]
    dsimp only [complete_workers]
    rw [if_pos (show ct ≤ time by omega)]
    dsimp only
    exact go_congr_fuel b' rfl _ _ _ |>.trans (by rw [show time + 1 = ct + 1 by omega])
  | succ k ih =>
    intro fuel g a ct time hct
    rw [show fuel + (k + 1 + 1) = fuel + (k + 1) + 1 by omega, execution_time_go]
    dsimp only [assign_workers]
    rw [if_neg (by simp [WorkerStatus.isIdle])]
    dsimp only [complete_workers]
    rw [if_neg (show ¬ ct ≤ time by omega)]
    dsimp only
    exact ih fuel g a ct (time + 1) (by omega)

/-- With an empty frontier and a single idle worker the loop returns at
once. -/
theorem go_empty (b : Nat) (fuel t : Nat) (g : Graph) (hq : g.exec_queue = []) :
    execution_time_go b (fuel + 1) g [.Idle] t = some (t, g) := by
  have hnext : g.next = none := (next_eq_none_iff g).mpr hq
  rw [execution_time_go]
  dsimp only [assign_workers]
  rw [hnext]
  dsimp only
  rw [if_pos (by simp [WorkerStatus.isIdle])]

/-- One chain segment: the idle worker picks up `a`, works `cost` ticks,
and completes it one tick later. -/
theorem segment_step (F time : Nat) (Nn : List Node) (C : List Char) (a : Char)
    (na : Node) (hfind : findN Nn a = some na) :
    execution_time_go 0 (F + (na.cost 0 + 1)) ⟨Nn, C, [a]⟩ [.Idle] time =
      execution_time_go 0 F ((⟨Nn, C, []⟩ : Graph).complete_node a) [.Idle]
        (time + na.cost 0 + 1) := by
  have hco : Graph.costOf ⟨Nn, C, []⟩ a 0 = na.cost 0 := by
    unfold Graph.costOf
    rw [graph_find_eq]
    show (match findN Nn a with
      | none => 0
      | some n => n.cost 0) = na.cost 0
    rw [hfind]
  have hassign : assign_workers time 0 [WorkerStatus.Idle] ⟨Nn, C, [a]⟩ =
      ([WorkerStatus.Working a (time + na.cost 0)], ⟨Nn, C, []⟩) := by
    rw [← hco]
    rfl
  cases hc : na.cost 0 with
  | zero =>
    rw [hc] at hassign
    rw [execution_time_go, hassign]
    dsimp only
    rw [if_neg (by simp [WorkerStatus.isIdle])]
    dsimp only [complete_workers]
    rw [if_pos (show time + 0 ≤ time by omega)]
  | succ k =>
    rw [hc] at hassign
    rw [show F + (k + 1 + 1) = F + (k + 1) + 1 by omega, execution_time_go, hassign]
    dsimp only
    rw [if_neg (by simp [WorkerStatus.isIdle])]
    dsimp only [complete_workers]
    rw [if_neg (show ¬ time + (k + 1) ≤ time by omega)]
    dsimp only
    have := busy_wait 0 k F (⟨Nn, C, []⟩ : Graph) a (time + (k + 1)) (time + 1)
      (by omega)
    rw [this]

theorem newlyReady_chain_nil (middle : List Node) (C : List Char) (a : Char)
    (ds : List Char) (hmid : ∀ n ∈ middle, n.id ≠ a) :
    (⟨middle ++ chainTail a ds [], C, []⟩ : Graph).newlyReady a = [] := by
  have hfind : (⟨middle ++ chainTail a ds [], C, ([] : List Char)⟩ : Graph).find a
      = some ⟨a, [], ds⟩ := by
    show findN (middle ++ chainTail a ds []) a = _
    rw [findN_append_right middle _ a hmid, findN_chainTail_head]
    rfl
  unfold Graph.newlyReady
  rw [hfind]
  rfl

theorem complete_node_chain_nil (middle : List Node) (C : List Char) (a : Char)
    (ds : List Char) (hmid : ∀ n ∈ middle, n.id ≠ a) :
    (⟨middle ++ chainTail a ds [], C, []⟩ : Graph).complete_node a =
      ⟨middle ++ chainTail a ds [], insertNew a C, []⟩ := by
  unfold Graph.complete_node
  rw [newlyReady_chain_nil middle C a ds hmid]
  rfl

theorem newlyReady_chain_cons (middle : List Node) (C : List Char) (a b : Char)
    (ds rest' : List Char) (hmid : ∀ n ∈ middle, n.id ≠ a ∧ n.id ≠ b)
    (hab : a ≠ b) :
    (⟨middle ++ chainTail a ds (b :: rest'), C, []⟩ : Graph).newlyReady a
      = [b] := by
  have hfind : (⟨middle ++ chainTail a ds (b :: rest'), C,
      ([] : List Char)⟩ : Graph).find a = some ⟨a, [b], ds⟩ := by
    show findN (middle ++ chainTail a ds (b :: rest')) a = _
    rw [findN_append_right middle _ a (fun n hn => (hmid n hn).1),
      findN_chainTail_head]
    rfl
  have hfindb : (⟨middle ++ chainTail a ds (b :: rest'), C,
      ([] : List Char)⟩ : Graph).find b = some (chainHead b [a] rest') := by
    show findN (middle ++ chainTail a ds (b :: rest')) b = _
    rw [findN_append_right middle _ b (fun n hn => (hmid n hn).2), chainTail,
      findN, List.find?_cons_of_neg _ (by simp [hab])]
    exact findN_chainTail_head b [a] rest'
  unfold Graph.newlyReady
  rw [hfind]
  simp only [List.filter_cons, List.filter_nil, hfindb, chainHead,
    List.all_cons, List.all_nil, Bool.and_true, decide_eq_true_eq,
    mem_insertNew, eq_self_iff_true, true_or, if_true]

theorem complete_node_chain_cons (middle : List Node) (C : List Char)
    (a b : Char) (ds rest' : List Char)
    (hmid : ∀ n ∈ middle, n.id ≠ a ∧ n.id ≠ b) (hab : a ≠ b) :
    (⟨middle ++ chainTail a ds (b :: rest'), C, []⟩ : Graph).complete_node a =
      ⟨middle ++ chainTail a ds (b :: rest'), insertNew a C, [b]⟩ := by
  unfold Graph.complete_node
  rw [newlyReady_chain_cons middle C a b ds rest' hmid hab]
  rfl

/-- Running the one-worker scheduler on a chain graph whose frontier
holds exactly the chain head: the run completes the whole chain,
consuming `cost + 1` ticks per task. -/
theorem chain_run :
    ∀ (rest : List Char) (a : Char) (ds : List Char) (middle : List Node)
      (C : List Char) (time fuel : Nat),
      (∀ n ∈ middle, n.id ∉ a :: rest) → (a :: rest).Nodup →
      ∃ g', execution_time_go 0 (fuel + 1 + chainTime (a :: rest))
          ⟨middle ++ chainTail a ds rest, C, [a]⟩ [.Idle] time =
        some (time + chainTime (a :: rest), g') := by
  intro rest
  induction rest with
  | nil =>
    intro a ds middle C time fuel hmid _hnd
    have hmid1 : ∀ n ∈ middle, n.id ≠ a := by
      intro n hn he
      exact hmid n hn (by simp [he])
    have hfind : findN (middle ++ chainTail a ds []) a = some ⟨a, [], ds⟩ := by
      rw [findN_append_right middle _ a hmid1, findN_chainTail_head]
      rfl
    refine ⟨⟨middle ++ chainTail a ds [], insertNew a C, []⟩, ?_⟩
    have hshape : fuel + 1 + chainTime [a] =
        (fuel + 1) + ((⟨a, [], ds⟩ : Node).cost 0 + 1) := by
      simp only [chainTime, Node.cost, List.map_cons, List.map_nil,
        List.sum_cons, List.sum_nil, List.length_cons, List.length_nil]
      omega
    rw [go_congr_fuel 0 hshape _ _ _,
      segment_step (fuel + 1) time _ C a _ hfind,
      complete_node_chain_nil middle C a ds hmid1,
      go_empty 0 fuel _ _ rfl]
    rw [show time + (⟨a, [], ds⟩ : Node).cost 0 + 1 = time + chainTime [a] from by
      simp only [chainTime, Node.cost, List.map_cons, List.map_nil,
        List.sum_cons, List.sum_nil, List.length_cons, List.length_nil]
      omega]
  | cons b rest' ih =>
    intro a ds middle C time fuel hmid hnd
    have hab : a ≠ b := by
      have := (List.nodup_cons.mp hnd).1
      intro he
      exact this (he ▸ List.mem_cons_self _ _)
    have hmid' : ∀ n ∈ middle, n.id ≠ a ∧ n.id ≠ b := by
      intro n hn
      constructor
      · intro he
        exact hmid n hn (by simp [he])
      · intro he
        exact hmid n hn (by simp [he])
    have hfind : findN (middle ++ chainTail a ds (b :: rest')) a =
        some ⟨a, [b], ds⟩ := by
      rw [findN_append_right middle _ a (fun n hn => (hmid' n hn).1),
        findN_chainTail_head]
      rfl
    have hsplit : middle ++ chainTail a ds (b :: rest') =
        (middle ++ [⟨a, [b], ds⟩]) ++ chainTail b [a] rest' := by
      rw [chainTail, List.append_cons, List.append_assoc]
    have hmid2 : ∀ n ∈ middle ++ [(⟨a, [b], ds⟩ : Node)],
        n.id ∉ b :: rest' := by
      intro n hn
      rcases List.mem_append.mp hn with h | h
      · intro hmem
        exact hmid n h (List.mem_cons_of_mem _ hmem)
      · have : n = ⟨a, [b], ds⟩ := by simpa using h
        rw [this]
        exact (List.nodup_cons.mp hnd).1
    have hnd' : (b :: rest').Nodup := (List.nodup_cons.mp hnd).2
    obtain ⟨g', hg'⟩ := ih b [a] (middle ++ [⟨a, [b], ds⟩]) (insertNew a C)
      (time + (⟨a, [b], ds⟩ : Node).cost 0 + 1) fuel hmid2 hnd'
    refine ⟨g', ?_⟩
    have hshape : fuel + 1 + chainTime (a :: b :: rest') =
        (fuel + 1 + chainTime (b :: rest')) +
          ((⟨a, [b], ds⟩ : Node).cost 0 + 1) := by
      simp only [chainTime, Node.cost, List.map_cons, List.map_nil,
        List.sum_cons, List.sum_nil, List.length_cons, List.length_nil]
      omega
    rw [go_congr_fuel 0 hshape _ _ _,
      segment_step (fuel + 1 + chainTime (b :: rest')) time _ C a _ hfind,
      complete_node_chain_cons middle C a b ds rest' hmid' hab, hsplit, hg']
    rw [show time + (⟨a, [b], ds⟩ : Node).cost 0 + 1 + chainTime (b :: rest')
        = time + chainTime (a :: b :: rest') from by
      simp only [chainTime, Node.cost, List.map_cons, List.map_nil,
        List.sum_cons, List.sum_nil, List.length_cons, List.length_nil]
      omega]

/-- C4 (counterexample): on the two-task chain A→B with one worker and
base cost 0 the scheduler returns elapsed time 3, while the sum of
`cost(id, 0)` over the task identifiers is 0 + 1 = 1 — each task
occupies `cost + 1` ticks (assignment at tick t, completion check at
`time >= completion_time`, then `time += 1`), so the elapsed time
exceeds the plain cost sum by one tick per task. -/
theorem chain_time_not_cost_sum :
    (execution_time 10 (Graph.new (chainEdges ['A', 'B'])) 1 0).map Prod.fst
        = some 3 ∧
      ((Graph.new (chainEdges ['A', 'B'])).nodes.map (fun n => n.cost 0)).sum
        = 1 ∧
      (execution_time 10 (Graph.new (chainEdges ['A', 'B'])) 1 0).map Prod.fst
        ≠ some (((Graph.new (chainEdges ['A', 'B'])).nodes.map
            (fun n => n.cost 0)).sum) :=
  ⟨rfl, rfl, by decide⟩

/-- C4 (amended): for every pure chain graph (built from the chain of
pairwise-distinct identifiers `x0 :: x1 :: rest`), `execution_time`
with one worker and base cost 0 terminates and returns the sum of
`cost(id, 0)` over the tasks in topological order PLUS one extra tick
per task (`+ length`), not the bare cost sum. -/
theorem chain_execution_time (x0 x1 : Char) (rest : List Char)
    (hnd : (x0 :: x1 :: rest).Nodup) :
    ∃ fuel g',
      execution_time fuel (Graph.new (chainEdges (x0 :: x1 :: rest))) 1 0 =
        some ((((x0 :: x1 :: rest).map (fun c => (Node.new c).cost 0)).sum
          + (x0 :: x1 :: rest).length), g') := by
  rw [Graph_new_chain x0 x1 rest hnd]
  obtain ⟨g', hg'⟩ := chain_run (x1 :: rest) x0 [] [] [] 0 0 (by simp) hnd
  refine ⟨0 + 1 + chainTime (x0 :: x1 :: rest), g', ?_⟩
  rw [Nat.zero_add (chainTime (x0 :: x1 :: rest))] at hg'
  exact hg'

theorem chain_execution_time_witness :
    (('A' : Char) :: 'B' :: ['C']).Nodup ∧
    ∃ fuel g',
      execution_time fuel (Graph.new (chainEdges ('A' :: 'B' :: ['C']))) 1 0 =
        some (((('A' : Char) :: 'B' :: ['C']).map
            (fun c => (Node.new c).cost 0)).sum
          + (('A' : Char) :: 'B' :: ['C']).length, g') :=
  ⟨by decide, chain_execution_time 'A' 'B' ['C'] (by decide)⟩

end Day07
